import Mathlib

/-!
# Document store of excaliapp (`main.go`)

A shallow embedding of the four store operations `ListFiles`, `GetFile`,
`SaveFile` and `DeleteFile` together with the library behaviour they rely on
(`encoding/json`, `path/filepath`, `os`, `time`), followed by the properties
of the store.

Go strings are modelled by `String`; the store only ever receives strings that
were decoded from JSON by the binding layer, which are valid UTF-8.
-/

namespace Excaliapp

/-! ## The record -/

/-- The struct `ExcalidrawFile` of `main.go`, field for field. -/
structure ExcalidrawFile where
  Id : String
  UserId : String
  Name : String
  Data : String
  Thumbnail : String
  CreatedAt : String
  UpdatedAt : String
  IsPublic : Bool
  InStorage : String
deriving DecidableEq, Repr

/-- The zero value `ExcalidrawFile{}`. -/
def ExcalidrawFile.zero : ExcalidrawFile :=
  ⟨"", "", "", "", "", "", "", false, ""⟩

/-! ## `encoding/json`: characters -/

/-- The double quote. -/
def cQuote : Char := Char.ofNat 34
/-- The backslash. -/
def cBackslash : Char := Char.ofNat 92
/-- The opening brace. -/
def cLBrace : Char := Char.ofNat 123
/-- The closing brace. -/
def cRBrace : Char := Char.ofNat 125
/-- The opening bracket. -/
def cLBracket : Char := Char.ofNat 91
/-- The closing bracket. -/
def cRBracket : Char := Char.ofNat 93

/-- Lower-case hexadecimal digit of a number below 16. -/
def hexDigit (n : Nat) : Char :=
  if n < 10 then Char.ofNat (48 + n) else Char.ofNat (87 + n)

/-- Value of a hexadecimal digit, either case. -/
def hexVal (c : Char) : Option Nat :=
  let n := c.toNat
  if 48 ≤ n ∧ n ≤ 57 then some (n - 48)
  else if 97 ≤ n ∧ n ≤ 102 then some (n - 87)
  else if 65 ≤ n ∧ n ≤ 70 then some (n - 55)
  else none

/-- The escape `\uXXXX` of a code unit below 65536. -/
def escapeU (n : Nat) : List Char :=
  [cBackslash, 'u', hexDigit (n / 4096 % 16), hexDigit (n / 256 % 16),
    hexDigit (n / 16 % 16), hexDigit (n % 16)]

/-- How `json.Marshal` writes one character of a string (HTML escaping on,
which is the default of `json.Marshal`). -/
def escapeChar (c : Char) : List Char :=
  if c = cQuote then [cBackslash, cQuote]
  else if c = cBackslash then [cBackslash, cBackslash]
  else if c.toNat = 8 then [cBackslash, 'b']
  else if c.toNat = 12 then [cBackslash, 'f']
  else if c.toNat = 10 then [cBackslash, 'n']
  else if c.toNat = 13 then [cBackslash, 'r']
  else if c.toNat = 9 then [cBackslash, 't']
  else if c.toNat < 32 ∨ c = '<' ∨ c = '>' ∨ c = '&' then escapeU c.toNat
  else if c.toNat = 8232 ∨ c.toNat = 8233 then escapeU c.toNat
  else [c]

/-- The body of a JSON string literal, without the surrounding quotes. -/
def escapeString : List Char → List Char
  | [] => []
  | c :: cs => escapeChar c ++ escapeString cs

/-- A JSON string literal. -/
def quoteString (s : String) : List Char :=
  cQuote :: (escapeString s.data ++ [cQuote])

/-- Four hexadecimal digits as a number. -/
def hex4 (a b c d : Char) : Option Nat :=
  match hexVal a, hexVal b, hexVal c, hexVal d with
  | some x, some y, some z, some w => some (x * 4096 + y * 256 + z * 16 + w)
  | _, _, _, _ => none

/-- The replacement character U+FFFD. -/
def cReplacement : Char := Char.ofNat 65533

/-- Reads the body of a string literal up to and including the closing quote;
returns the decoded text and the rest of the input.  A lone surrogate escape
decodes to U+FFFD, a surrogate pair to its code point, as in `unquote`.  The
first argument bounds the number of characters still to be read. -/
def parseStrBody : Nat → List Char → Option (List Char × List Char)
  | 0, _ => none
  | _ + 1, [] => none
  | k + 1, c :: rest =>
    if c = cQuote then some ([], rest)
    else if c.toNat < 32 then none
    else if c = cBackslash then
      match rest with
      | [] => none
      | e :: rest1 =>
        if e = 'u' then
          match rest1 with
          | h1 :: h2 :: h3 :: h4 :: rest2 =>
            match hex4 h1 h2 h3 h4 with
            | none => none
            | some n =>
              if 55296 ≤ n ∧ n < 57344 then
                match rest2 with
                | b :: u :: k1 :: k2 :: k3 :: k4 :: rest3 =>
                  match hex4 k1 k2 k3 k4 with
                  | some m =>
                    if b = cBackslash ∧ u = 'u' ∧ n < 56320 ∧ 56320 ≤ m ∧ m < 57344 then
                      (parseStrBody k rest3).map
                        (fun p => (Char.ofNat ((n - 55296) * 1024 + (m - 56320) + 65536) :: p.1, p.2))
                    else (parseStrBody k rest2).map (fun p => (cReplacement :: p.1, p.2))
                  | none => (parseStrBody k rest2).map (fun p => (cReplacement :: p.1, p.2))
                | _ => (parseStrBody k rest2).map (fun p => (cReplacement :: p.1, p.2))
              else (parseStrBody k rest2).map (fun p => (Char.ofNat n :: p.1, p.2))
          | _ => none
        else
          let plain : Option Char :=
            if e = cQuote then some cQuote
            else if e = cBackslash then some cBackslash
            else if e = '/' then some '/'
            else if e = 'b' then some (Char.ofNat 8)
            else if e = 'f' then some (Char.ofNat 12)
            else if e = 'n' then some (Char.ofNat 10)
            else if e = 'r' then some (Char.ofNat 13)
            else if e = 't' then some (Char.ofNat 9)
            else none
          match plain with
          | none => none
          | some d => (parseStrBody k rest1).map (fun p => (d :: p.1, p.2))
    else (parseStrBody k rest).map (fun p => (c :: p.1, p.2))


/-! ## `encoding/json`: values and objects -/

/-- JSON white space. -/
def isWs (c : Char) : Bool :=
  c.toNat = 32 || c.toNat = 9 || c.toNat = 10 || c.toNat = 13

/-- Drops leading white space. -/
def skipWs : List Char → List Char
  | [] => []
  | c :: cs => if isWs c then skipWs cs else c :: cs

/-- A decimal digit. -/
def isDigit (c : Char) : Bool := 48 ≤ c.toNat && c.toNat ≤ 57

/-- Drops leading decimal digits. -/
def skipDigits : List Char → List Char
  | [] => []
  | c :: cs => if isDigit c then skipDigits cs else c :: cs

/-- The exponent part of a number, if there is one. -/
def skipExponent (cs : List Char) : Option (List Char) :=
  match cs with
  | [] => some cs
  | e :: r =>
    if e = 'e' ∨ e = 'E' then
      let r1 := match r with
        | [] => r
        | s :: r2 => if s = '+' ∨ s = '-' then r2 else r
      match r1 with
      | [] => none
      | d :: r3 => if isDigit d then some (skipDigits r3) else none
    else some cs

/-- The fraction and exponent parts of a number, if there are any. -/
def skipFraction (cs : List Char) : Option (List Char) :=
  match cs with
  | [] => some cs
  | p :: r =>
    if p = '.' then
      match r with
      | [] => none
      | d :: r1 => if isDigit d then skipExponent (skipDigits r1) else none
    else skipExponent cs

/-- Reads a JSON number and returns the rest of the input. -/
def skipNumber (cs : List Char) : Option (List Char) :=
  let cs1 := match cs with
    | [] => cs
    | m :: r => if m = '-' then r else cs
  match cs1 with
  | [] => none
  | d :: r =>
    if d = '0' then skipFraction r
    else if isDigit d then skipFraction (skipDigits r)
    else none

/-- Reads the given literal off the front of the input. -/
def stripLit : List Char → List Char → Option (List Char)
  | [], cs => some cs
  | _ :: _, [] => none
  | l :: ls, c :: cs => if l = c then stripLit ls cs else none

/-- What the struct decoder needs to know of a JSON value: `null`, a boolean,
a string, or something else (a number, an array, an object). -/
inductive JValue where
  | null
  | bool (b : Bool)
  | str (s : String)
  | other
deriving DecidableEq, Repr

mutual
/-- Reads one JSON value; the first argument bounds the nesting and the
number of members still to be read. -/
def parseValue : Nat → List Char → Option (JValue × List Char)
  | 0, _ => none
  | _ + 1, [] => none
  | k + 1, c :: rest =>
    if c = cQuote then
      (parseStrBody rest.length rest).map (fun p => (JValue.str (String.mk p.1), p.2))
    else if c = 't' then (stripLit ['r', 'u', 'e'] rest).map (fun r => (JValue.bool true, r))
    else if c = 'f' then
      (stripLit ['a', 'l', 's', 'e'] rest).map (fun r => (JValue.bool false, r))
    else if c = 'n' then (stripLit ['u', 'l', 'l'] rest).map (fun r => (JValue.null, r))
    else if c = cLBrace then
      match skipWs rest with
      | [] => none
      | d :: r =>
        if d = cRBrace then some (JValue.other, r)
        else (parseMembers k (d :: r)).map (fun p => (JValue.other, p.2))
    else if c = cLBracket then
      match skipWs rest with
      | [] => none
      | d :: r =>
        if d = cRBracket then some (JValue.other, r)
        else (parseElems k (d :: r)).map (fun r1 => (JValue.other, r1))
    else (skipNumber (c :: rest)).map (fun r => (JValue.other, r))
/-- Reads the members of an object, from the first key to the closing brace. -/
def parseMembers : Nat → List Char → Option (List (String × JValue) × List Char)
  | 0, _ => none
  | _ + 1, [] => none
  | k + 1, q :: r =>
    if q = cQuote then
      match parseStrBody r.length r with
      | none => none
      | some (key, r1) =>
        match skipWs r1 with
        | [] => none
        | colon :: r2 =>
          if colon = ':' then
            match parseValue k (skipWs r2) with
            | none => none
            | some (v, r3) =>
              match skipWs r3 with
              | [] => none
              | d :: r4 =>
                if d = ',' then
                  (parseMembers k (skipWs r4)).map (fun p => ((String.mk key, v) :: p.1, p.2))
                else if d = cRBrace then some ([(String.mk key, v)], r4)
                else none
          else none
    else none
/-- Reads the elements of an array, from the first one to the closing bracket. -/
def parseElems : Nat → List Char → Option (List Char)
  | 0, _ => none
  | k + 1, cs =>
    match parseValue k cs with
    | none => none
    | some (_, r) =>
      match skipWs r with
      | [] => none
      | d :: r1 =>
        if d = ',' then parseElems k (skipWs r1)
        else if d = cRBracket then some r1
        else none
end

/-! ## `encoding/json`: the struct `ExcalidrawFile` -/

/-- The members `json.Marshal` writes for the struct, in declaration order;
`data` and `thumbnail` carry `omitempty`. -/
def jsonFields (f : ExcalidrawFile) : List (String × JValue) :=
  [("id", JValue.str f.Id), ("userId", JValue.str f.UserId), ("name", JValue.str f.Name)]
    ++ (if f.Data = "" then [] else [("data", JValue.str f.Data)])
    ++ (if f.Thumbnail = "" then [] else [("thumbnail", JValue.str f.Thumbnail)])
    ++ [("createdAt", JValue.str f.CreatedAt), ("updatedAt", JValue.str f.UpdatedAt),
        ("isPublic", JValue.bool f.IsPublic), ("inStorage", JValue.str f.InStorage)]

/-- The text of a value the struct encoder can produce. -/
def renderValue : JValue → List Char
  | JValue.str s => quoteString s
  | JValue.bool true => ['t', 'r', 'u', 'e']
  | JValue.bool false => ['f', 'a', 'l', 's', 'e']
  | JValue.null => ['n', 'u', 'l', 'l']
  | JValue.other => ['0']

/-- One member, written without white space. -/
def renderMember (m : String × JValue) : List Char :=
  quoteString m.1 ++ ':' :: renderValue m.2

/-- The members separated by commas. -/
def renderMembers : List (String × JValue) → List Char
  | [] => []
  | [m] => renderMember m
  | m :: ms => renderMember m ++ ',' :: renderMembers ms

/-- The bytes `json.Marshal(file)` returns.  Encoding this struct cannot fail. -/
def jsonMarshal (f : ExcalidrawFile) : String :=
  String.mk (cLBrace :: (renderMembers (jsonFields f) ++ [cRBrace]))

/-- The fields of the struct that have a JSON name. -/
inductive Field where
  | id | userId | name | data | thumbnail | createdAt | updatedAt | isPublic | inStorage
deriving DecidableEq, Repr

/-- The JSON names of the fields, from the struct tags. -/
def fieldNames : List (String × Field) :=
  [("id", Field.id), ("userId", Field.userId), ("name", Field.name), ("data", Field.data),
   ("thumbnail", Field.thumbnail), ("createdAt", Field.createdAt),
   ("updatedAt", Field.updatedAt), ("isPublic", Field.isPublic),
   ("inStorage", Field.inStorage)]

/-- Case folding of one character of a key, as far as it can matter for the
ASCII names above: letters to upper case, and the two non-ASCII characters
whose fold set contains an ASCII letter. -/
def foldChar (c : Char) : Char :=
  if 97 ≤ c.toNat ∧ c.toNat ≤ 122 then Char.ofNat (c.toNat - 32)
  else if c.toNat = 383 then 'S'
  else if c.toNat = 8490 then 'K'
  else c

/-- Case folding of a key. -/
def foldName (s : String) : List Char := s.data.map foldChar

/-- The field a key of the input addresses: the decoder prefers an exact match
and accepts a match up to case folding; the names are distinct up to folding, so
the two coincide. -/
def findField (key : String) : Option Field :=
  (fieldNames.find? (fun p => foldName p.1 = foldName key)).map (fun p => p.2)

/-- Stores a string in a field; a boolean field refuses it. -/
def setString (f : ExcalidrawFile) (fld : Field) (s : String) : Option ExcalidrawFile :=
  match fld with
  | Field.id => some { f with Id := s }
  | Field.userId => some { f with UserId := s }
  | Field.name => some { f with Name := s }
  | Field.data => some { f with Data := s }
  | Field.thumbnail => some { f with Thumbnail := s }
  | Field.createdAt => some { f with CreatedAt := s }
  | Field.updatedAt => some { f with UpdatedAt := s }
  | Field.isPublic => none
  | Field.inStorage => some { f with InStorage := s }

/-- Decodes one member into the struct: unknown keys are skipped, `null` leaves
the field as it is, a value of the wrong type is an error. -/
def assignMember (f : ExcalidrawFile) (m : String × JValue) : Option ExcalidrawFile :=
  match findField m.1 with
  | none => some f
  | some fld =>
    match m.2 with
    | JValue.null => some f
    | JValue.str s => setString f fld s
    | JValue.bool b => if fld = Field.isPublic then some { f with IsPublic := b } else none
    | JValue.other => none

/-- Decodes the members in input order, so a repeated key overwrites. -/
def assignMembers : ExcalidrawFile → List (String × JValue) → Option ExcalidrawFile
  | f, [] => some f
  | f, m :: ms => (assignMember f m).bind (fun g => assignMembers g ms)

/-- The call `json.Unmarshal(data, &file)` on a fresh `ExcalidrawFile{}`:
`none` is a non-nil error.  The input must be one JSON value, white space
around it allowed; `null` leaves the struct as it is, an object is decoded
member by member, any other value is a type error. -/
def jsonUnmarshal (data : String) : Option ExcalidrawFile :=
  match skipWs data.data with
  | [] => none
  | c :: rest =>
    if c = cLBrace then
      match skipWs rest with
      | [] => none
      | d :: r =>
        if d = cRBrace then
          if skipWs r = [] then some ExcalidrawFile.zero else none
        else
          match parseMembers data.data.length (d :: r) with
          | none => none
          | some (ms, r1) =>
            if skipWs r1 = [] then assignMembers ExcalidrawFile.zero ms else none
    else if c = 'n' then
      match stripLit ['u', 'l', 'l'] rest with
      | none => none
      | some r => if skipWs r = [] then some ExcalidrawFile.zero else none
    else none

/-- The values the struct encoder writes: strings and booleans. -/
def JValue.isScalar : JValue → Bool
  | JValue.str _ => true
  | JValue.bool _ => true
  | _ => false

/-! ## `path/filepath`

The storage directory is an absolute, cleaned path (it is itself the result of
`filepath.Join`); a path is the list of its components below the root.  The
separator is the slash. -/

/-- An absolute cleaned path, by components. -/
abbrev Path := List String

/-- Splits a name at the separators; always yields at least one piece. -/
def splitSep : List Char → List (List Char)
  | [] => [[]]
  | c :: cs =>
    if c = '/' then [] :: splitSep cs
    else
      match splitSep cs with
      | [] => [[c]]
      | h :: t => (c :: h) :: t

/-- What `filepath.Clean` does with one more component: empty components and
`.` vanish, `..` removes the last component (the root is its own parent). -/
def cleanStep (stack : Path) (comp : List Char) : Path :=
  if comp = [] ∨ comp = ['.'] then stack
  else if comp = ['.', '.'] then stack.dropLast
  else stack ++ [String.mk comp]

/-- The call `filepath.Join(dir, name)` for a cleaned absolute `dir` and a
non-empty `name`. -/
def filepathJoin (dir : Path) (name : String) : Path :=
  (splitSep name.data).foldl cleanStep dir

/-- The call `strings.HasSuffix(s, suffix)`. -/
def hasSuffix (s suffix : String) : Bool :=
  decide (suffix.data.length ≤ s.data.length ∧
    s.data.drop (s.data.length - suffix.data.length) = suffix.data)

/-! ## `os`: the file system -/

/-- A file with its content, or a directory with its named entries.  File
contents are text: the store writes strings and reads them back unchanged
(`[]byte(s)` and `string(b)` are identities).  A name that occurs twice in a
directory stands for its first entry. -/
inductive Node where
  | file (content : String)
  | dir (entries : List (String × Node))

/-- The file system, given by its root. -/
abbrev FS := Node

/-- Error numbers the calls of the store can meet. -/
inductive Errno where
  | ENOENT
  | ENOTDIR
  | EISDIR
  | ENOTEMPTY
  | EBUSY
deriving DecidableEq, Repr

/-- The entry of a directory with the given name. -/
def assocGet {β : Type} (n : String) : List (String × β) → Option β
  | [] => none
  | e :: es => if e.1 = n then some e.2 else assocGet n es

/-- Replaces the entry with the given name, or adds it. -/
def assocSet {β : Type} (n : String) (v : β) : List (String × β) → List (String × β)
  | [] => [(n, v)]
  | e :: es => if e.1 = n then (n, v) :: es else e :: assocSet n v es

/-- Removes the entries with the given name. -/
def assocDel {β : Type} (n : String) : List (String × β) → List (String × β)
  | [] => []
  | e :: es => if e.1 = n then assocDel n es else e :: assocDel n es

/-- Path lookup: `ENOENT` where a component is missing, `ENOTDIR` where the
path runs through a file. -/
def Node.resolve : Node → Path → Except Errno Node
  | n, [] => Except.ok n
  | Node.file _, _ :: _ => Except.error Errno.ENOTDIR
  | Node.dir es, c :: p =>
    match assocGet c es with
    | none => Except.error Errno.ENOENT
    | some n => n.resolve p

/-- Applies an update to the entries of the directory at a path. -/
def Node.modifyDir : Node → Path →
    (List (String × Node) → Except Errno (List (String × Node))) → Except Errno Node
  | Node.file _, _, _ => Except.error Errno.ENOTDIR
  | Node.dir es, [], f =>
    match f es with
    | Except.error e => Except.error e
    | Except.ok es1 => Except.ok (Node.dir es1)
  | Node.dir es, c :: p, f =>
    match assocGet c es with
    | none => Except.error Errno.ENOENT
    | some n =>
      match n.modifyDir p f with
      | Except.error e => Except.error e
      | Except.ok m => Except.ok (Node.dir (assocSet c m es))

/-- Creates or truncates the file of the given name in a directory
(`O_WRONLY|O_CREATE|O_TRUNC`); a directory of that name is in the way. -/
def writeEntry (n : String) (s : String) (es : List (String × Node)) :
    Except Errno (List (String × Node)) :=
  match assocGet n es with
  | some (Node.dir _) => Except.error Errno.EISDIR
  | _ => Except.ok (assocSet n (Node.file s) es)

/-- Removes the file or empty directory of the given name from a directory. -/
def removeEntry (n : String) (es : List (String × Node)) :
    Except Errno (List (String × Node)) :=
  match assocGet n es with
  | none => Except.error Errno.ENOENT
  | some (Node.file _) => Except.ok (assocDel n es)
  | some (Node.dir []) => Except.ok (assocDel n es)
  | some (Node.dir (_ :: _)) => Except.error Errno.ENOTEMPTY

/-- Writes a file at a path: the parent must be a directory. -/
def Node.write (t : Node) (p : Path) (s : String) : Except Errno Node :=
  match p.getLast? with
  | none => Except.error Errno.EISDIR
  | some n => t.modifyDir p.dropLast (writeEntry n s)

/-- Removes the file or empty directory at a path. -/
def Node.remove (t : Node) (p : Path) : Except Errno Node :=
  match p.getLast? with
  | none => Except.error Errno.EBUSY
  | some n => t.modifyDir p.dropLast (removeEntry n)

/-- The call `os.Stat(name)`; only whether it succeeds is used. -/
def osStat (fs : FS) (p : Path) : Except Errno Unit :=
  match fs.resolve p with
  | Except.error e => Except.error e
  | Except.ok _ => Except.ok ()

/-- The call `os.ReadFile(name)`. -/
def osReadFile (fs : FS) (p : Path) : Except Errno String :=
  match fs.resolve p with
  | Except.error e => Except.error e
  | Except.ok (Node.file s) => Except.ok s
  | Except.ok (Node.dir _) => Except.error Errno.EISDIR

/-- The call `os.WriteFile(name, data, 0644)`: the new file system, or the error
with the file system as it was. -/
def osWriteFile (fs : FS) (p : Path) (s : String) : Except Errno FS := fs.write p s

/-- The call `os.Remove(name)`. -/
def osRemove (fs : FS) (p : Path) : Except Errno FS := fs.remove p

/-- Bytewise order of names, which for UTF-8 is the order of code points. -/
def nameLt : List Char → List Char → Bool
  | [], [] => false
  | [], _ :: _ => true
  | _ :: _, [] => false
  | a :: as, b :: bs => decide (a.toNat < b.toNat) || (decide (a = b) && nameLt as bs)

/-- The call `os.ReadDir(name)`: the entry names, sorted by name. -/
def osReadDir (fs : FS) (p : Path) : Except Errno (List String) :=
  match fs.resolve p with
  | Except.error e => Except.error e
  | Except.ok (Node.file _) => Except.error Errno.ENOTDIR
  | Except.ok (Node.dir es) =>
    Except.ok ((es.map (fun e => e.1)).insertionSort (fun a b => nameLt b.data a.data = false))

/-- The directory a document's two files live in: the storage directory moved
by the components of the id before its last separator. -/
def parentDir (storageDirectory : Path) (id : String) : Path :=
  (splitSep id.data).dropLast.foldl cleanStep storageDirectory

/-- The part of an id after its last separator. -/
def stem (id : String) : List Char := (splitSep id.data).getLastD []

/-- An id without a path separator. -/
def noSeparator (id : String) : Prop := '/' ∉ id.data

instance (id : String) : Decidable (noSeparator id) := by
  unfold noSeparator; infer_instance

/-- Looking up one name in a list of entries, with the error of a miss. -/
def childOf (es : List (String × Node)) (n : String) : Except Errno Node :=
  match assocGet n es with
  | none => Except.error Errno.ENOENT
  | some x => Except.ok x

/-! ## `time` -/

/-- A reading of `time.Now()`: the civil date and clock time in the local zone,
the nanoseconds within the second, and the zone offset in seconds east of UTC. -/
structure Time where
  year : Nat
  month : Nat
  day : Nat
  hour : Nat
  minute : Nat
  second : Nat
  nano : Nat
  offset : Int
deriving DecidableEq, Repr

/-- The decimal digit of a number below 10. -/
def digitChar (n : Nat) : Char := Char.ofNat (48 + n)

/-- A number in decimal, padded with zeros to the given width. -/
def appendInt (n width : Nat) : List Char :=
  if width = 2 ∧ n < 100 then [digitChar (n / 10), digitChar (n % 10)]
  else if width = 4 ∧ n < 10000 then
    [digitChar (n / 1000), digitChar (n / 100 % 10), digitChar (n / 10 % 10), digitChar (n % 10)]
  else
    let ds := Nat.toDigits 10 n
    List.replicate (width - ds.length) '0' ++ ds

/-- The zone of the layout `Z07:00`: `Z` for offset zero, otherwise sign, hours,
colon, minutes of the offset truncated to whole minutes. -/
def formatZone (offset : Int) : List Char :=
  if offset = 0 then ['Z']
  else
    let zone := offset.natAbs / 60
    (if offset ≤ -60 then '-' else '+') :: (appendInt (zone / 60) 2 ++ ':' :: appendInt (zone % 60) 2)

/-- The call `t.Format(time.RFC3339)`, layout `2006-01-02T15:04:05Z07:00`. -/
def formatRFC3339 (t : Time) : String :=
  String.mk (appendInt t.year 4 ++ '-' :: appendInt t.month 2 ++ '-' :: appendInt t.day 2
    ++ 'T' :: appendInt t.hour 2 ++ ':' :: appendInt t.minute 2 ++ ':' :: appendInt t.second 2
    ++ formatZone t.offset)

/-! ## The store -/

/-- The errors the store returns: the message of the `fmt.Errorf` call and the
error it wraps. -/
inductive StoreError where
  | readDir (cause : Errno)
  | readFile (cause : Errno)
  | unmarshal
  | readData (cause : Errno)
  | readExisting (cause : Errno)
  | writeData (cause : Errno)
  | writeFile (cause : Errno)
  | deleteFile (cause : Errno)
  | deleteData (cause : Errno)
deriving DecidableEq, Repr

/-- The wrapped error of the file system, if there is one. -/
def StoreError.cause : StoreError → Option Errno
  | StoreError.readDir e => some e
  | StoreError.readFile e => some e
  | StoreError.unmarshal => none
  | StoreError.readData e => some e
  | StoreError.readExisting e => some e
  | StoreError.writeData e => some e
  | StoreError.writeFile e => some e
  | StoreError.deleteFile e => some e
  | StoreError.deleteData e => some e

/-- Whether the error is a not-found error, `errors.Is(err, fs.ErrNotExist)`. -/
def StoreError.isNotExist (e : StoreError) : Bool :=
  decide (e.cause = some Errno.ENOENT)

/-- The path of the metadata file, `filepath.Join(storageDirectory, id+".i.json")`. -/
def metaPath (storageDirectory : Path) (id : String) : Path :=
  filepathJoin storageDirectory (id ++ ".i.json")

/-- The path of the content file, `filepath.Join(storageDirectory, id+".excalidraw")`. -/
def dataPath (storageDirectory : Path) (id : String) : Path :=
  filepathJoin storageDirectory (id ++ ".excalidraw")

/-- The loop of `ListFiles` over the directory entries. -/
def listLoop (fs : FS) (storageDirectory : Path) :
    List String → List ExcalidrawFile → Except StoreError (List ExcalidrawFile)
  | [], files => Except.ok files
  | name :: rest, files =>
    if hasSuffix name ".i.json" then
      match osReadFile fs (filepathJoin storageDirectory name) with
      | Except.error e => Except.error (StoreError.readFile e)
      | Except.ok data =>
        match jsonUnmarshal data with
        | none => Except.error StoreError.unmarshal
        | some file =>
          listLoop fs storageDirectory rest (files ++ [{ file with InStorage := "local" }])
    else listLoop fs storageDirectory rest files

/-- The method `ListFiles`. -/
def ListFiles (fs : FS) (storageDirectory : Path) : Except StoreError (List ExcalidrawFile) :=
  match osReadDir fs storageDirectory with
  | Except.error e => Except.error (StoreError.readDir e)
  | Except.ok list => listLoop fs storageDirectory list []

/-- The method `GetFile`. -/
def GetFile (fs : FS) (storageDirectory : Path) (id : String) :
    Except StoreError ExcalidrawFile :=
  match osReadFile fs (metaPath storageDirectory id) with
  | Except.error e => Except.error (StoreError.readFile e)
  | Except.ok data =>
    match jsonUnmarshal data with
    | none => Except.error StoreError.unmarshal
    | some file =>
      match osReadFile fs (dataPath storageDirectory id) with
      | Except.error e => Except.error (StoreError.readData e)
      | Except.ok content => Except.ok { file with InStorage := "local", Data := content }

/-- The first part of `SaveFile`: the record with the creation date of an
existing, decodable metadata file, or the error of reading that file. -/
def preserveCreated (fs : FS) (storageDirectory : Path) (file : ExcalidrawFile) :
    Except StoreError ExcalidrawFile :=
  match osStat fs (metaPath storageDirectory file.Id) with
  | Except.error _ => Except.ok file
  | Except.ok _ =>
    match osReadFile fs (metaPath storageDirectory file.Id) with
    | Except.error e => Except.error (StoreError.readExisting e)
    | Except.ok content =>
      match jsonUnmarshal content with
      | none => Except.ok file
      | some existingFile => Except.ok { file with CreatedAt := existingFile.CreatedAt }

/-- The record `SaveFile` encodes: content cleared, creation date filled in
from the first clock reading when still empty, update date from the second. -/
def stampRecord (file : ExcalidrawFile) (now1 now2 : Time) : ExcalidrawFile :=
  { file with
    Data := ""
    CreatedAt := if file.CreatedAt = "" then formatRFC3339 now1 else file.CreatedAt
    UpdatedAt := formatRFC3339 now2 }

/-- The method `SaveFile`; `now1` and `now2` are the readings of the two calls
of `time.Now()`.  Returns the file system after the call and the error, if any. -/
def SaveFile (fs : FS) (storageDirectory : Path) (file : ExcalidrawFile) (now1 now2 : Time) :
    FS × Option StoreError :=
  match preserveCreated fs storageDirectory file with
  | Except.error e => (fs, some e)
  | Except.ok file1 =>
    match osWriteFile fs (dataPath storageDirectory file.Id) file1.Data with
    | Except.error e => (fs, some (StoreError.writeData e))
    | Except.ok fs1 =>
      match osWriteFile fs1 (metaPath storageDirectory file.Id)
          (jsonMarshal (stampRecord file1 now1 now2)) with
      | Except.error e => (fs1, some (StoreError.writeFile e))
      | Except.ok fs2 => (fs2, none)

/-- The method `DeleteFile`. -/
def DeleteFile (fs : FS) (storageDirectory : Path) (id : String) : FS × Option StoreError :=
  match osRemove fs (metaPath storageDirectory id) with
  | Except.error e => (fs, some (StoreError.deleteFile e))
  | Except.ok fs1 =>
    match osRemove fs1 (dataPath storageDirectory id) with
    | Except.error e => (fs1, some (StoreError.deleteData e))
    | Except.ok fs2 => (fs2, none)

/-- The record decoded from the metadata file of an id, if that file can be
read and decoded. -/
def storedRecord (fs : FS) (storageDirectory : Path) (id : String) : Option ExcalidrawFile :=
  match osReadFile fs (metaPath storageDirectory id) with
  | Except.error _ => none
  | Except.ok data => jsonUnmarshal data

/-- A run of `SaveFile` calls, each with its two clock readings, every one of
which succeeds; `none` when one of them returns an error. -/
def saveAll (fs : FS) (storageDirectory : Path) :
    List (ExcalidrawFile × Time × Time) → Option FS
  | [] => some fs
  | s :: rest =>
    match SaveFile fs storageDirectory s.1 s.2.1 s.2.2 with
    | (fs1, none) => saveAll fs1 storageDirectory rest
    | (_, some _) => none

/-- Lexicographic order on lists of numbers of equal length. -/
def lexLt : List Nat → List Nat → Bool
  | a :: as, b :: bs => decide (a < b) || (decide (a = b) && lexLt as bs)
  | _, _ => false

/-- The civil second of a clock reading: year, month, day, hour, minute, second. -/
def Time.civil (t : Time) : List Nat := [t.year, t.month, t.day, t.hour, t.minute, t.second]

/-- A clock reading with a four-digit year and fields in their calendar ranges. -/
def Time.valid (t : Time) : Prop :=
  t.year ≤ 9999 ∧ 1 ≤ t.month ∧ t.month ≤ 12 ∧ 1 ≤ t.day ∧ t.day ≤ 31 ∧ t.hour ≤ 23
    ∧ t.minute ≤ 59 ∧ t.second ≤ 59 ∧ t.nano ≤ 999999999

instance (t : Time) : Decidable t.valid := by
  unfold Time.valid; infer_instance

/-- The second reading is later than the first, both in the same zone. -/
def Time.later (a b : Time) : Prop :=
  a.offset = b.offset ∧ lexLt (a.civil ++ [a.nano]) (b.civil ++ [b.nano]) = true

instance (a b : Time) : Decidable (a.later b) := by
  unfold Time.later; infer_instance

/-- The second reading lies in a later clock second than the first, both in
the same zone. -/
def Time.laterSecond (a b : Time) : Prop :=
  a.offset = b.offset ∧ lexLt a.civil b.civil = true

instance (a b : Time) : Decidable (a.laterSecond b) := by
  unfold Time.laterSecond; infer_instance

/-! ## Concrete stores and documents used in the examples below -/

/-- A store whose storage directory `/data/excaliapp` exists and is empty. -/
def emptyStore : FS := Node.dir [("data", Node.dir [("excaliapp", Node.dir [])])]

/-- The storage directory `/data/excaliapp`. -/
def storageDir : Path := ["data", "excaliapp"]

/-- A clock reading: 2024-05-06 07:08:09 UTC, 100 ns into the second. -/
def clockA : Time := ⟨2024, 5, 6, 7, 8, 9, 100, 0⟩

/-- A later reading within the same second. -/
def clockB : Time := ⟨2024, 5, 6, 7, 8, 9, 900, 0⟩

/-- A reading one second after `clockA`. -/
def clockC : Time := ⟨2024, 5, 6, 7, 8, 10, 0, 0⟩

/-- A document as a caller may pass it, tagged with a location other than local. -/
def draft : ExcalidrawFile := ⟨"abc", "u1", "Draft", "DATA1", "", "", "", false, "remote"⟩

/-- A document for which the caller supplies a creation date of its own. -/
def dated : ExcalidrawFile :=
  ⟨"abc", "u1", "Draft", "DATA1", "", "1999-12-31T23:59:59Z", "", false, "local"⟩

/-- A document with no dates, as the first save of a new drawing passes it. -/
def fresh : ExcalidrawFile := ⟨"abc", "u1", "Draft", "DATA1", "", "", "", false, "local"⟩

/-- The store after the first save of `fresh`. -/
def storeAfterFirst : FS := (SaveFile emptyStore storageDir fresh clockA clockA).1

/-- The store after a second save of the same id, one second later, by a
caller who supplies a creation date of its own. -/
def storeAfterSecond : FS := (SaveFile storeAfterFirst storageDir dated clockC clockC).1

/-- A second document, with the id `xyz`. -/
def other : ExcalidrawFile := ⟨"xyz", "u2", "Sketch", "DATA9", "", "", "", true, "local"⟩

/-- A document whose id walks out of the storage directory. -/
def outside : ExcalidrawFile := ⟨"../x", "u1", "Draft", "DATA1", "", "", "", false, "local"⟩

/-- A store with an empty storage directory and, beside it, the metadata file
`/data/x.i.json` without a content file. -/
def strayStore : FS :=
  Node.dir [("data", Node.dir [("excaliapp", Node.dir []),
    ("x.i.json", Node.file (jsonMarshal outside))])]

/-- A store whose storage directory holds the metadata file of `abc` but not
its content file. -/
def orphanStore : FS :=
  Node.dir [("data", Node.dir [("excaliapp",
    Node.dir [("abc.i.json", Node.file (jsonMarshal fresh))])])]

theorem hexVal_hexDigit : ∀ d : Fin 16, hexVal (hexDigit d.val) = some d.val := by decide

theorem hex4_escape (n : Nat) (h : n < 65536) :
    hex4 (hexDigit (n / 4096 % 16)) (hexDigit (n / 256 % 16)) (hexDigit (n / 16 % 16))
      (hexDigit (n % 16)) = some n := by
  have h1 := hexVal_hexDigit ⟨n / 4096 % 16, Nat.mod_lt _ (by decide)⟩
  have h2 := hexVal_hexDigit ⟨n / 256 % 16, Nat.mod_lt _ (by decide)⟩
  have h3 := hexVal_hexDigit ⟨n / 16 % 16, Nat.mod_lt _ (by decide)⟩
  have h4 := hexVal_hexDigit ⟨n % 16, Nat.mod_lt _ (by decide)⟩
  simp only at h1 h2 h3 h4
  simp only [hex4, h1, h2, h3, h4, Option.some.injEq]
  omega

theorem parseStrBody_escapeU (k : Nat) (c : Char) (rest : List Char)
    (h : c.toNat < 55296) :
    parseStrBody (k + 1) (escapeU c.toNat ++ rest)
      = (parseStrBody k rest).map (fun p => (c :: p.1, p.2)) := by
  have hq : cBackslash ≠ cQuote := by decide
  have hb : ¬ cBackslash.toNat < 32 := by decide
  simp [escapeU, parseStrBody, hq, hb, hex4_escape c.toNat (by omega)]
  omega

theorem char_eq_of_toNat (c d : Char) (h : c.toNat = d.toNat) : c = d := by
  rw [← Char.ofNat_toNat c, ← Char.ofNat_toNat d, h]

theorem parseStrBody_escapeChar (k : Nat) (c : Char) (rest : List Char) :
    parseStrBody (k + 1) (escapeChar c ++ rest)
      = (parseStrBody k rest).map (fun p => (c :: p.1, p.2)) := by
  have hq : cBackslash ≠ cQuote := by decide
  have hb : ¬ cBackslash.toNat < 32 := by decide
  unfold escapeChar
  split_ifs with h1 h2 h3 h4 h5 h6 h7 h8 h9
  · subst h1; simp +decide [parseStrBody, hq, hb]
  · subst h2; simp +decide [parseStrBody, hq, hb]
  · have : c = Char.ofNat 8 := char_eq_of_toNat _ _ h3
    subst this; simp +decide [parseStrBody, hq, hb]
  · have : c = Char.ofNat 12 := char_eq_of_toNat _ _ h4
    subst this; simp +decide [parseStrBody, hq, hb]
  · have : c = Char.ofNat 10 := char_eq_of_toNat _ _ h5
    subst this; simp +decide [parseStrBody, hq, hb]
  · have : c = Char.ofNat 13 := char_eq_of_toNat _ _ h6
    subst this; simp +decide [parseStrBody, hq, hb]
  · have : c = Char.ofNat 9 := char_eq_of_toNat _ _ h7
    subst this; simp +decide [parseStrBody, hq, hb]
  · apply parseStrBody_escapeU
    rcases h8 with h | h | h | h
    · omega
    · subst h; decide
    · subst h; decide
    · subst h; decide
  · apply parseStrBody_escapeU
    omega
  · simp only [List.singleton_append, parseStrBody, if_neg h1, if_neg h2]
    rw [if_neg (by intro h; exact h8 (Or.inl h))]
    rfl

theorem parseStrBody_escapeString (s r : List Char) (j : Nat) :
    parseStrBody (s.length + 1 + j) (escapeString s ++ cQuote :: r) = some (s, r) := by
  induction s with
  | nil =>
    have : ([] : List Char).length + 1 + j = j + 1 := by simp; omega
    rw [this]
    simp [escapeString, parseStrBody]
  | cons c cs ih =>
    have : (c :: cs).length + 1 + j = (cs.length + 1 + j) + 1 := by simp; omega
    rw [this, escapeString, List.append_assoc, parseStrBody_escapeChar, ih]
    rfl



theorem escapeChar_length_pos (c : Char) : 1 ≤ (escapeChar c).length := by
  unfold escapeChar escapeU
  split_ifs <;> simp

theorem escapeString_length_ge (s : List Char) : s.length ≤ (escapeString s).length := by
  induction s with
  | nil => simp
  | cons c cs ih =>
    have := escapeChar_length_pos c
    simp only [escapeString, List.length_cons, List.length_append]
    omega

theorem parseStrBody_quoted (s r : List Char) :
    parseStrBody (escapeString s ++ cQuote :: r).length (escapeString s ++ cQuote :: r)
      = some (s, r) := by
  have h := escapeString_length_ge s
  have hl : (escapeString s ++ cQuote :: r).length
      = s.length + 1 + ((escapeString s).length - s.length + r.length) := by
    simp only [List.length_append, List.length_cons]
    omega
  rw [hl]
  exact parseStrBody_escapeString s r _

theorem skipWs_cons (c : Char) (cs : List Char) (h : isWs c = false) :
    skipWs (c :: cs) = c :: cs := by
  simp [skipWs, h]

theorem parseValue_render (k : Nat) (v : JValue) (hv : v.isScalar = true) (r : List Char) :
    parseValue (k + 1) (renderValue v ++ r) = some (v, r) := by
  match v, hv with
  | JValue.str s, _ =>
    simp only [renderValue, quoteString, List.cons_append, List.append_assoc,
      List.singleton_append, parseValue, if_true, parseStrBody_quoted]
    rfl
  | JValue.bool true, _ =>
    simp +decide [renderValue, parseValue, stripLit]
  | JValue.bool false, _ =>
    simp +decide [renderValue, parseValue, stripLit]

theorem renderValue_head (v : JValue) (hv : v.isScalar = true) (r : List Char) :
    skipWs (renderValue v ++ r) = renderValue v ++ r := by
  match v, hv with
  | JValue.str s, _ => exact skipWs_cons _ _ (by decide)
  | JValue.bool true, _ => exact skipWs_cons _ _ (by decide)
  | JValue.bool false, _ => exact skipWs_cons _ _ (by decide)

theorem parseMembers_one (k : Nat) (m : String × JValue) (hm : m.2.isScalar = true)
    (d : Char) (r : List Char) (hd : isWs d = false) :
    parseMembers (k + 2) (renderMember m ++ d :: r)
      = if d = ',' then
          (parseMembers (k + 1) (skipWs r)).map (fun p => (m :: p.1, p.2))
        else if d = cRBrace then some ([m], r) else none := by
  obtain ⟨key, v⟩ := m
  have hshape : renderMember (key, v) ++ d :: r
      = cQuote :: (escapeString key.data ++ cQuote :: (':' :: (renderValue v ++ d :: r))) := by
    simp [renderMember, quoteString]
  rw [hshape, parseMembers, if_pos rfl, parseStrBody_quoted]
  simp only []
  rw [skipWs_cons _ _ (by decide)]
  simp only [if_true]
  rw [renderValue_head v hm, parseValue_render k v hm]
  simp only [skipWs_cons _ _ hd]

theorem skipWs_renderMembers (ms : List (String × JValue)) (hne : ms ≠ []) (r : List Char) :
    skipWs (renderMembers ms ++ r) = renderMembers ms ++ r := by
  match ms, hne with
  | [m], _ => exact skipWs_cons _ _ (by decide)
  | m :: m2 :: rest, _ => exact skipWs_cons _ _ (by decide)

theorem parseMembers_render (ms : List (String × JValue)) (hne : ms ≠ [])
    (hs : ∀ m ∈ ms, m.2.isScalar = true) (k : Nat) (r : List Char) :
    parseMembers (k + 1 + ms.length) (renderMembers ms ++ cRBrace :: r) = some (ms, r) := by
  induction ms with
  | nil => exact absurd rfl hne
  | cons m rest ih =>
    cases rest with
    | nil =>
      have h := parseMembers_one k m (hs m (by simp)) cRBrace r (by decide)
      simp only [renderMembers, List.length_singleton]
      rw [h]
      simp +decide
    | cons m2 rest2 =>
      have hrec := ih (by simp) (fun x hx => hs x (List.mem_cons_of_mem _ hx))
      have h := parseMembers_one (k + (m2 :: rest2).length) m (hs m (by simp)) ','
        (renderMembers (m2 :: rest2) ++ cRBrace :: r) (by decide)
      have hl : k + 1 + (m :: m2 :: rest2).length = k + (m2 :: rest2).length + 2 := by
        simp only [List.length_cons]; omega
      have hl2 : k + (m2 :: rest2).length + 1 = k + 1 + (m2 :: rest2).length := by omega
      simp only [renderMembers, List.append_assoc, List.cons_append]
      rw [hl, h, if_pos rfl, skipWs_renderMembers _ (by simp), hl2, hrec]
      rfl

theorem renderMember_head (m : String × JValue) :
    ∃ tl, renderMember m = cQuote :: tl := ⟨_, rfl⟩

theorem renderMembers_head (ms : List (String × JValue)) (hne : ms ≠ []) :
    ∃ tl, renderMembers ms = cQuote :: tl := by
  match ms, hne with
  | [m], _ => exact ⟨_, rfl⟩
  | m :: m2 :: rest, _ => exact ⟨_, rfl⟩

theorem renderMembers_length (ms : List (String × JValue)) :
    ms.length ≤ (renderMembers ms).length := by
  induction ms with
  | nil => simp
  | cons m rest ih =>
    cases rest with
    | nil => simp [renderMembers, renderMember, quoteString]
    | cons m2 rest2 =>
      simp only [renderMembers, List.length_append, List.length_cons] at ih ⊢
      omega

theorem jsonFields_ne_nil (f : ExcalidrawFile) : jsonFields f ≠ [] := by
  simp [jsonFields]

theorem jsonFields_scalar (f : ExcalidrawFile) :
    ∀ m ∈ jsonFields f, m.2.isScalar = true := by
  intro m hm
  simp only [jsonFields, List.mem_append, List.mem_cons, List.mem_singleton] at hm
  rcases hm with ((((h | h | h) | h) | h) | h)
  all_goals first
    | (split_ifs at h <;> simp at h <;> subst h <;> rfl)
    | (rcases h with h | h | h | h | h <;> first | subst h; rfl | simp at h)
    | (subst h; rfl)

theorem assignMembers_jsonFields (f : ExcalidrawFile) :
    assignMembers ExcalidrawFile.zero (jsonFields f) = some f := by
  obtain ⟨i, u, n, d, t, c, up, p, l⟩ := f
  have h1 : findField "id" = some Field.id := by decide
  have h2 : findField "userId" = some Field.userId := by decide
  have h3 : findField "name" = some Field.name := by decide
  have h4 : findField "data" = some Field.data := by decide
  have h5 : findField "thumbnail" = some Field.thumbnail := by decide
  have h6 : findField "createdAt" = some Field.createdAt := by decide
  have h7 : findField "updatedAt" = some Field.updatedAt := by decide
  have h8 : findField "isPublic" = some Field.isPublic := by decide
  have h9 : findField "inStorage" = some Field.inStorage := by decide
  by_cases hd : d = "" <;> by_cases ht : t = "" <;>
    simp [jsonFields, assignMembers, assignMember, setString, ExcalidrawFile.zero,
      h1, h2, h3, h4, h5, h6, h7, h8, h9, hd, ht]

/-- Decoding what `json.Marshal` wrote gives the record back. -/
theorem jsonUnmarshal_jsonMarshal (f : ExcalidrawFile) :
    jsonUnmarshal (jsonMarshal f) = some f := by
  obtain ⟨tl, htl⟩ := renderMembers_head (jsonFields f) (jsonFields_ne_nil f)
  have hlen := renderMembers_length (jsonFields f)
  have hfuel : (cLBrace :: (renderMembers (jsonFields f) ++ [cRBrace])).length
      = ((renderMembers (jsonFields f)).length - (jsonFields f).length) + 1
        + 1 + (jsonFields f).length := by
    simp only [List.length_cons, List.length_append, List.length_nil]
    omega
  have hparse := parseMembers_render (jsonFields f) (jsonFields_ne_nil f) (jsonFields_scalar f)
    ((renderMembers (jsonFields f)).length - (jsonFields f).length + 1) []
  unfold jsonUnmarshal jsonMarshal
  simp only []
  rw [skipWs_cons _ _ (by decide)]
  dsimp only
  rw [if_pos rfl]
  simp only [hfuel]
  rw [htl] at hparse ⊢
  simp only [List.cons_append]
  rw [skipWs_cons _ _ (by decide)]
  dsimp only
  rw [if_neg (by decide)]
  simp only [List.cons_append] at hparse
  rw [hparse]
  simp only [skipWs, if_true]
  exact assignMembers_jsonFields f


/-! ## Lemmas on paths -/

theorem splitSep_ne_nil (s : List Char) : splitSep s ≠ [] := by
  cases s with
  | nil => simp [splitSep]
  | cons c cs =>
    simp only [splitSep]
    split_ifs
    · simp
    · split <;> simp

theorem splitSep_noSlash (s : List Char) (h : '/' ∉ s) : splitSep s = [s] := by
  induction s with
  | nil => rfl
  | cons c cs ih =>
    have hc : c ≠ '/' := fun e => h (by simp [e])
    have hcs : '/' ∉ cs := fun e => h (List.mem_cons_of_mem _ e)
    simp [splitSep, hc, ih hcs]

theorem dropLast_cons_ne {α : Type} (x : α) (l : List α) (h : l ≠ []) :
    (x :: l).dropLast = x :: l.dropLast := by
  cases l with
  | nil => exact absurd rfl h
  | cons y ys => rfl

theorem getLastD_cons_ne {α : Type} (x d : α) (l : List α) (h : l ≠ []) :
    (x :: l).getLastD d = l.getLastD d := by
  cases l with
  | nil => exact absurd rfl h
  | cons y ys => simp [List.getLastD]

theorem splitSep_append (a sfx : List Char) (h : '/' ∉ sfx) :
    splitSep (a ++ sfx) = (splitSep a).dropLast ++ [(splitSep a).getLastD [] ++ sfx] := by
  induction a with
  | nil => simp [splitSep_noSlash sfx h, splitSep]
  | cons c cs ih =>
    have hne := splitSep_ne_nil cs
    have e : (c :: cs) ++ sfx = c :: (cs ++ sfx) := rfl
    rw [e]
    by_cases hc : c = '/'
    · have hR : splitSep (c :: cs) = [] :: splitSep cs := by simp [splitSep, hc]
      have hLft : splitSep (c :: (cs ++ sfx)) = [] :: splitSep (cs ++ sfx) := by
        simp [splitSep, hc]
      rw [hR, hLft, ih, dropLast_cons_ne _ _ hne, getLastD_cons_ne _ _ _ hne]
      rfl
    · cases hL : splitSep cs with
      | nil => exact absurd hL hne
      | cons h0 t0 =>
        have hR : splitSep (c :: cs) = (c :: h0) :: t0 := by simp [splitSep, hc, hL]
        have hLft : splitSep (c :: (cs ++ sfx))
            = match splitSep (cs ++ sfx) with
              | [] => [[c]]
              | x :: t => (c :: x) :: t := by simp [splitSep, hc]
        rw [hR, hLft, ih, hL]
        cases t0 with
        | nil => simp
        | cons h1 t1 =>
          rw [dropLast_cons_ne h0 (h1 :: t1) (by simp),
            dropLast_cons_ne (c :: h0) (h1 :: t1) (by simp),
            getLastD_cons_ne h0 [] (h1 :: t1) (by simp),
            getLastD_cons_ne (c :: h0) [] (h1 :: t1) (by simp)]
          rfl

theorem cleanStep_push (stack : Path) (comp : List Char) (h : 3 ≤ comp.length) :
    cleanStep stack comp = stack ++ [String.mk comp] := by
  unfold cleanStep
  rw [if_neg, if_neg]
  · intro e; rw [e] at h; simp at h
  · rintro (e | e) <;> rw [e] at h <;> simp at h

theorem filepathJoin_suffix (dir : Path) (id sfx : String) (h : '/' ∉ sfx.data)
    (hl : 3 ≤ sfx.data.length) :
    filepathJoin dir (id ++ sfx) = parentDir dir id ++ [String.mk (stem id ++ sfx.data)] := by
  unfold filepathJoin parentDir stem
  rw [String.data_append, splitSep_append _ _ h, List.foldl_append]
  simp only [List.foldl_cons, List.foldl_nil]
  exact cleanStep_push _ _ (by simp only [List.length_append]; omega)

theorem metaPath_eq (dir : Path) (id : String) :
    metaPath dir id = parentDir dir id ++ [String.mk (stem id ++ ".i.json".data)] :=
  filepathJoin_suffix dir id ".i.json" (by decide) (by decide)

theorem dataPath_eq (dir : Path) (id : String) :
    dataPath dir id = parentDir dir id ++ [String.mk (stem id ++ ".excalidraw".data)] :=
  filepathJoin_suffix dir id ".excalidraw" (by decide) (by decide)

theorem metaName_ne_dataName (a b : List Char) :
    String.mk (a ++ ".i.json".data) ≠ String.mk (b ++ ".excalidraw".data) := by
  intro h
  have h1 : a ++ ".i.json".data = b ++ ".excalidraw".data := by
    simpa using congrArg String.data h
  have h2 := congrArg List.getLast? h1
  simp [List.getLast?_append] at h2

theorem parentDir_noSeparator (dir : Path) (id : String) (h : noSeparator id) :
    parentDir dir id = dir := by
  unfold parentDir
  rw [splitSep_noSlash _ h]
  rfl

theorem stem_noSeparator (id : String) (h : noSeparator id) : stem id = id.data := by
  unfold stem
  rw [splitSep_noSlash _ h]
  rfl

theorem metaPath_noSeparator (dir : Path) (id : String) (h : noSeparator id) :
    metaPath dir id = dir ++ [id ++ ".i.json"] := by
  rw [metaPath_eq, parentDir_noSeparator dir id h, stem_noSeparator id h]
  rfl

theorem dataPath_noSeparator (dir : Path) (id : String) (h : noSeparator id) :
    dataPath dir id = dir ++ [id ++ ".excalidraw"] := by
  rw [dataPath_eq, parentDir_noSeparator dir id h, stem_noSeparator id h]
  rfl

theorem append_suffix_inj (a b sfx : String) (h : a ++ sfx = b ++ sfx) : a = b := by
  have h1 := congrArg String.data h
  simp only [String.data_append] at h1
  have := List.append_cancel_right h1
  exact String.ext this


/-! ## Lemmas on the file system -/

theorem assocGet_assocSet_same {β : Type} (n : String) (v : β) (es : List (String × β)) :
    assocGet n (assocSet n v es) = some v := by
  induction es with
  | nil => simp [assocSet, assocGet]
  | cons e es ih =>
    by_cases h : e.1 = n
    · simp [assocSet, assocGet, h]
    · simp [assocSet, assocGet, h, ih]

theorem assocGet_assocSet_ne {β : Type} (m n : String) (v : β) (es : List (String × β))
    (h : m ≠ n) : assocGet m (assocSet n v es) = assocGet m es := by
  induction es with
  | nil => simp [assocSet, assocGet, Ne.symm h]
  | cons e es ih =>
    by_cases h1 : e.1 = n
    · have h2 : e.1 ≠ m := fun e2 => h (e2.symm.trans h1)
      simp [assocSet, assocGet, h1, h2, Ne.symm h]
    · by_cases h2 : e.1 = m
      · simp [assocSet, assocGet, h1, h2, h]
      · simp [assocSet, assocGet, h1, h2, ih]

theorem assocGet_assocDel_same {β : Type} (n : String) (es : List (String × β)) :
    assocGet n (assocDel n es) = none := by
  induction es with
  | nil => rfl
  | cons e es ih =>
    by_cases h : e.1 = n
    · simp [assocDel, h, ih]
    · simp [assocDel, assocGet, h, ih]

theorem assocGet_assocDel_ne {β : Type} (m n : String) (es : List (String × β))
    (h : m ≠ n) : assocGet m (assocDel n es) = assocGet m es := by
  induction es with
  | nil => rfl
  | cons e es ih =>
    by_cases h1 : e.1 = n
    · have h2 : e.1 ≠ m := fun e2 => h (e2.symm.trans h1)
      simp [assocDel, assocGet, h1, h2, ih, Ne.symm h]
    · by_cases h2 : e.1 = m
      · simp [assocDel, assocGet, h1, h2, h]
      · simp [assocDel, assocGet, h1, h2, ih]

theorem assocGet_isSome_iff {β : Type} (n : String) (es : List (String × β)) :
    (∃ v, assocGet n es = some v) ↔ n ∈ es.map (fun e => e.1) := by
  induction es with
  | nil => simp [assocGet]
  | cons e es ih =>
    by_cases h : e.1 = n
    · simp [assocGet, h]
    · have h2 : ¬ n = e.1 := fun e2 => h e2.symm
      simp [assocGet, h, h2, ih]

theorem resolve_dir_singleton (es : List (String × Node)) (n : String) :
    (Node.dir es).resolve [n] = childOf es n := by
  unfold childOf
  cases h : assocGet n es with
  | none => simp [Node.resolve, h]
  | some x => cases x <;> simp [Node.resolve, h]

theorem resolve_append_of_ok (t : Node) (a b : Path) (x : Node)
    (h : t.resolve a = Except.ok x) : t.resolve (a ++ b) = x.resolve b := by
  induction a generalizing t with
  | nil =>
    simp only [Node.resolve, Except.ok.injEq] at h
    subst h; rfl
  | cons c p ih =>
    cases t with
    | file s => simp [Node.resolve] at h
    | dir es =>
      cases hg : assocGet c es with
      | none => simp [Node.resolve, hg] at h
      | some n =>
        simp only [Node.resolve, hg] at h
        simp only [List.cons_append, Node.resolve, hg]
        exact ih n h

theorem modifyDir_ok (t t1 : Node) (base : Path)
    (f : List (String × Node) → Except Errno (List (String × Node)))
    (h : t.modifyDir base f = Except.ok t1) :
    ∃ es es1, t.resolve base = Except.ok (Node.dir es) ∧ f es = Except.ok es1
      ∧ t1.resolve base = Except.ok (Node.dir es1) := by
  induction base generalizing t t1 with
  | nil =>
    cases t with
    | file s => simp [Node.modifyDir] at h
    | dir es =>
      cases hf : f es with
      | error e => simp [Node.modifyDir, hf] at h
      | ok es1 =>
        simp only [Node.modifyDir, hf, Except.ok.injEq] at h
        subst h
        exact ⟨es, es1, rfl, hf, rfl⟩
  | cons c p ih =>
    cases t with
    | file s => simp [Node.modifyDir] at h
    | dir es =>
      cases hg : assocGet c es with
      | none => simp [Node.modifyDir, hg] at h
      | some n =>
        cases hm : n.modifyDir p f with
        | error e => simp [Node.modifyDir, hg, hm] at h
        | ok m =>
          simp only [Node.modifyDir, hg, hm, Except.ok.injEq] at h
          subst h
          obtain ⟨es0, es1, h1, h2, h3⟩ := ih n m hm
          refine ⟨es0, es1, ?_, h2, ?_⟩
          · simp only [Node.resolve, hg]; exact h1
          · simp only [Node.resolve, assocGet_assocSet_same]; exact h3

theorem modifyDir_ok_of (t : Node) (base : Path)
    (f : List (String × Node) → Except Errno (List (String × Node))) (es : List (String × Node))
    (h : t.resolve base = Except.ok (Node.dir es)) (es1 : List (String × Node))
    (hf : f es = Except.ok es1) : ∃ t1, t.modifyDir base f = Except.ok t1 := by
  induction base generalizing t with
  | nil =>
    simp only [Node.resolve, Except.ok.injEq] at h
    subst h
    exact ⟨Node.dir es1, by simp [Node.modifyDir, hf]⟩
  | cons c p ih =>
    cases t with
    | file s => simp [Node.resolve] at h
    | dir es0 =>
      cases hg : assocGet c es0 with
      | none => simp [Node.resolve, hg] at h
      | some n =>
        simp only [Node.resolve, hg] at h
        obtain ⟨m, hm⟩ := ih n h
        exact ⟨Node.dir (assocSet c m es0), by simp [Node.modifyDir, hg, hm]⟩

theorem resolve_child (fs : FS) (base : Path) (es : List (String × Node)) (m : String)
    (h : fs.resolve base = Except.ok (Node.dir es)) :
    fs.resolve (base ++ [m]) = childOf es m := by
  rw [resolve_append_of_ok fs base [m] _ h, resolve_dir_singleton]

theorem write_sibling (fs fs1 : FS) (base : Path) (n s : String)
    (h : osWriteFile fs (base ++ [n]) s = Except.ok fs1) :
    ∃ es, fs.resolve base = Except.ok (Node.dir es)
      ∧ fs1.resolve base = Except.ok (Node.dir (assocSet n (Node.file s) es)) := by
  unfold osWriteFile Node.write at h
  simp only [List.getLast?_concat,
    List.dropLast_concat] at h
  obtain ⟨es, es1, h1, h2, h3⟩ := modifyDir_ok fs fs1 base _ h
  refine ⟨es, h1, ?_⟩
  unfold writeEntry at h2
  split at h2
  · simp at h2
  · simp only [Except.ok.injEq] at h2
    rw [← h2] at h3
    exact h3

theorem remove_sibling (fs fs1 : FS) (base : Path) (n : String)
    (h : osRemove fs (base ++ [n]) = Except.ok fs1) :
    ∃ es, fs.resolve base = Except.ok (Node.dir es)
      ∧ fs1.resolve base = Except.ok (Node.dir (assocDel n es)) := by
  unfold osRemove Node.remove at h
  simp only [List.getLast?_concat,
    List.dropLast_concat] at h
  obtain ⟨es, es1, h1, h2, h3⟩ := modifyDir_ok fs fs1 base _ h
  refine ⟨es, h1, ?_⟩
  unfold removeEntry at h2
  split at h2
  · simp at h2
  · simp only [Except.ok.injEq] at h2
    rw [← h2] at h3
    exact h3
  · simp only [Except.ok.injEq] at h2
    rw [← h2] at h3
    exact h3
  · simp at h2

theorem read_after_write (fs fs1 : FS) (base : Path) (n s : String)
    (h : osWriteFile fs (base ++ [n]) s = Except.ok fs1) :
    osReadFile fs1 (base ++ [n]) = Except.ok s := by
  obtain ⟨es, _, h2⟩ := write_sibling fs fs1 base n s h
  unfold osReadFile
  rw [resolve_child fs1 base _ n h2]
  simp [childOf, assocGet_assocSet_same]

theorem resolve_after_write_ne (fs fs1 : FS) (base : Path) (n m s : String)
    (h : osWriteFile fs (base ++ [n]) s = Except.ok fs1) (hne : m ≠ n) :
    fs1.resolve (base ++ [m]) = fs.resolve (base ++ [m]) := by
  obtain ⟨es, h1, h2⟩ := write_sibling fs fs1 base n s h
  rw [resolve_child fs1 base _ m h2, resolve_child fs base _ m h1]
  simp [childOf, assocGet_assocSet_ne m n _ es hne]

theorem resolve_after_remove (fs fs1 : FS) (base : Path) (n : String)
    (h : osRemove fs (base ++ [n]) = Except.ok fs1) :
    fs1.resolve (base ++ [n]) = Except.error Errno.ENOENT := by
  obtain ⟨es, _, h2⟩ := remove_sibling fs fs1 base n h
  rw [resolve_child fs1 base _ n h2]
  simp [childOf, assocGet_assocDel_same]

theorem resolve_after_remove_ne (fs fs1 : FS) (base : Path) (n m : String)
    (h : osRemove fs (base ++ [n]) = Except.ok fs1) (hne : m ≠ n) :
    fs1.resolve (base ++ [m]) = fs.resolve (base ++ [m]) := by
  obtain ⟨es, h1, h2⟩ := remove_sibling fs fs1 base n h
  rw [resolve_child fs1 base _ m h2, resolve_child fs base _ m h1]
  simp [childOf, assocGet_assocDel_ne m n es hne]

theorem osReadFile_congr (fs fs1 : FS) (p : Path) (h : fs1.resolve p = fs.resolve p) :
    osReadFile fs1 p = osReadFile fs p := by
  unfold osReadFile; rw [h]


/-! ## Lemmas on the store operations -/

theorem preserveCreated_eq (fs : FS) (dir : Path) (d f1 : ExcalidrawFile)
    (h : preserveCreated fs dir d = Except.ok f1) :
    ∃ c, f1 = { d with CreatedAt := c } := by
  unfold preserveCreated at h
  split at h
  · simp only [Except.ok.injEq] at h
    exact ⟨d.CreatedAt, h.symm⟩
  · split at h
    · simp at h
    · split at h
      · simp only [Except.ok.injEq] at h
        exact ⟨d.CreatedAt, h.symm⟩
      · simp only [Except.ok.injEq] at h
        exact ⟨_, h.symm⟩

theorem SaveFile_ok (fs : FS) (dir : Path) (d : ExcalidrawFile) (n1 n2 : Time)
    (h : (SaveFile fs dir d n1 n2).2 = none) :
    ∃ f1, preserveCreated fs dir d = Except.ok f1
      ∧ osReadFile (SaveFile fs dir d n1 n2).1 (metaPath dir d.Id)
          = Except.ok (jsonMarshal (stampRecord f1 n1 n2))
      ∧ osReadFile (SaveFile fs dir d n1 n2).1 (dataPath dir d.Id) = Except.ok d.Data := by
  unfold SaveFile at h ⊢
  cases hp : preserveCreated fs dir d with
  | error e => simp [hp] at h
  | ok f1 =>
    obtain ⟨c, hc⟩ := preserveCreated_eq fs dir d f1 hp
    have hd : f1.Data = d.Data := by rw [hc]
    simp only [hp] at h ⊢
    cases hw : osWriteFile fs (dataPath dir d.Id) f1.Data with
    | error e => simp [hw] at h
    | ok fs1 =>
      simp only [hw] at h ⊢
      cases hw2 : osWriteFile fs1 (metaPath dir d.Id) (jsonMarshal (stampRecord f1 n1 n2)) with
      | error e => simp [hw2] at h
      | ok fs2 =>
        simp only [hw2]
        refine ⟨f1, rfl, ?_, ?_⟩
        · rw [metaPath_eq] at hw2 ⊢
          exact read_after_write _ _ _ _ _ hw2
        · rw [metaPath_eq] at hw2
          rw [dataPath_eq] at hw ⊢
          have hne := (metaName_ne_dataName (stem d.Id) (stem d.Id)).symm
          rw [osReadFile_congr fs1 fs2 _ (resolve_after_write_ne fs1 fs2 _ _ _ _ hw2 hne)]
          rw [← hd]
          exact read_after_write _ _ _ _ _ hw

theorem GetFile_after_save (fs : FS) (dir : Path) (d : ExcalidrawFile) (n1 n2 : Time)
    (h : (SaveFile fs dir d n1 n2).2 = none) :
    ∃ f1, preserveCreated fs dir d = Except.ok f1
      ∧ GetFile (SaveFile fs dir d n1 n2).1 dir d.Id
        = Except.ok { stampRecord f1 n1 n2 with InStorage := "local", Data := d.Data } := by
  obtain ⟨f1, h1, h2, h3⟩ := SaveFile_ok fs dir d n1 n2 h
  refine ⟨f1, h1, ?_⟩
  unfold GetFile
  simp only [h2, h3, jsonUnmarshal_jsonMarshal]

theorem storedRecord_after_save (fs : FS) (dir : Path) (d : ExcalidrawFile) (n1 n2 : Time)
    (h : (SaveFile fs dir d n1 n2).2 = none) :
    ∃ f1, preserveCreated fs dir d = Except.ok f1
      ∧ storedRecord (SaveFile fs dir d n1 n2).1 dir d.Id = some (stampRecord f1 n1 n2) := by
  obtain ⟨f1, h1, h2, _⟩ := SaveFile_ok fs dir d n1 n2 h
  refine ⟨f1, h1, ?_⟩
  unfold storedRecord
  simp only [h2, jsonUnmarshal_jsonMarshal]


/-! ## The claims -/

/-- C1, as stated, fails: saving `draft`, whose location tag is `remote`,
succeeds, and the record `GetFile` then returns carries the tag `local`, so a
field other than `createdAt` and `updatedAt` differs from the value supplied. -/
theorem C1_location_differs :
    (SaveFile emptyStore storageDir draft clockA clockA).2 = none
    ∧ ∃ r, GetFile (SaveFile emptyStore storageDir draft clockA clockA).1 storageDir draft.Id
          = Except.ok r
        ∧ r.InStorage ≠ draft.InStorage := by
  refine ⟨by decide, ?_⟩
  obtain ⟨f1, _, h2⟩ := GetFile_after_save emptyStore storageDir draft clockA clockA (by decide)
  refine ⟨_, h2, ?_⟩
  show "local" ≠ "remote"
  decide

/-- C1, amended: when `SaveFile(d)` succeeds, `GetFile(d.id)` on the resulting
store succeeds and returns a record with the content, id, userId, name,
thumbnail and isPublic of `d`; only createdAt, updatedAt and the location tag,
which is always `local`, may differ from `d`. -/
theorem C1_save_get_roundtrip (fs : FS) (dir : Path) (d : ExcalidrawFile) (now1 now2 : Time)
    (hsave : (SaveFile fs dir d now1 now2).2 = none) :
    ∃ r, GetFile (SaveFile fs dir d now1 now2).1 dir d.Id = Except.ok r
      ∧ r = { d with CreatedAt := r.CreatedAt, UpdatedAt := r.UpdatedAt, InStorage := "local" } := by
  obtain ⟨f1, h1, h2⟩ := GetFile_after_save fs dir d now1 now2 hsave
  obtain ⟨c, hc⟩ := preserveCreated_eq fs dir d f1 h1
  refine ⟨_, h2, ?_⟩
  subst hc
  rfl

/-- C1, amended, at a concrete store and document. -/
theorem C1_save_get_roundtrip_witness :
    ∃ r, GetFile (SaveFile emptyStore storageDir draft clockA clockA).1 storageDir draft.Id
        = Except.ok r
      ∧ r = { draft with
                CreatedAt := r.CreatedAt, UpdatedAt := r.UpdatedAt, InStorage := "local" } :=
  C1_save_get_roundtrip emptyStore storageDir draft clockA clockA (by decide)


/-- C8: if the write of the content file fails, `SaveFile` returns an error
and the metadata file is what it was before the call, or still absent. -/
theorem C8_content_write_failure (fs : FS) (dir : Path) (d : ExcalidrawFile) (now1 now2 : Time)
    (e : Errno) (hfail : osWriteFile fs (dataPath dir d.Id) d.Data = Except.error e) :
    (SaveFile fs dir d now1 now2).2 ≠ none
    ∧ (SaveFile fs dir d now1 now2).1.resolve (metaPath dir d.Id) = fs.resolve (metaPath dir d.Id)
    ∧ osReadFile (SaveFile fs dir d now1 now2).1 (metaPath dir d.Id)
        = osReadFile fs (metaPath dir d.Id) := by
  have key : (SaveFile fs dir d now1 now2).2 ≠ none ∧ (SaveFile fs dir d now1 now2).1 = fs := by
    unfold SaveFile
    cases hp : preserveCreated fs dir d with
    | error e1 => simp
    | ok f1 =>
      obtain ⟨c, hc⟩ := preserveCreated_eq fs dir d f1 hp
      have hd : f1.Data = d.Data := by rw [hc]
      simp [hd, hfail]
  exact ⟨key.1, by rw [key.2], by rw [key.2]⟩

/-- C8 at a store without the storage directory, where the content write fails. -/
theorem C8_content_write_failure_witness :
    (SaveFile (Node.dir []) storageDir draft clockA clockA).2 ≠ none
    ∧ (SaveFile (Node.dir []) storageDir draft clockA clockA).1.resolve
        (metaPath storageDir draft.Id) = (Node.dir []).resolve (metaPath storageDir draft.Id)
    ∧ osReadFile (SaveFile (Node.dir []) storageDir draft clockA clockA).1
        (metaPath storageDir draft.Id) = osReadFile (Node.dir []) (metaPath storageDir draft.Id) :=
  C8_content_write_failure (Node.dir []) storageDir draft clockA clockA Errno.ENOENT rfl

theorem preserveCreated_new (fs : FS) (dir : Path) (d : ExcalidrawFile) (e : Errno)
    (h : osStat fs (metaPath dir d.Id) = Except.error e) :
    preserveCreated fs dir d = Except.ok d := by
  unfold preserveCreated
  rw [h]

/-- C3, as stated, fails: no metadata file exists for the id of `dated`, the
save at clock reading `clockA` succeeds, yet the stored createdAt is the date
the caller supplied and not the rendering of the clock reading. -/
theorem C3_caller_date_kept :
    osStat emptyStore (metaPath storageDir dated.Id) = Except.error Errno.ENOENT
    ∧ (SaveFile emptyStore storageDir dated clockA clockA).2 = none
    ∧ ∃ r, storedRecord (SaveFile emptyStore storageDir dated clockA clockA).1 storageDir dated.Id
          = some r
        ∧ r.CreatedAt = "1999-12-31T23:59:59Z"
        ∧ r.CreatedAt ≠ formatRFC3339 clockA := by
  refine ⟨rfl, by decide, ?_⟩
  obtain ⟨f1, h1, h2⟩ :=
    storedRecord_after_save emptyStore storageDir dated clockA clockA (by decide)
  have hf : f1 = dated := by
    rw [preserveCreated_new emptyStore storageDir dated Errno.ENOENT rfl] at h1
    exact (Except.ok.inj h1).symm
  subst hf
  exact ⟨_, h2, by decide, by decide⟩

/-- C3, amended: when no metadata file exists for `d.id`, a successful
`SaveFile(d)` stores metadata whose updatedAt is the RFC 3339 rendering of the
second clock reading; its createdAt is the rendering of the first clock reading
when `d` carries an empty createdAt (so both are the rendering of `t` when both
readings are `t`), and is the createdAt of `d`, unchanged, when that is not
empty. -/
theorem C3_new_id_defaults (fs : FS) (dir : Path) (d : ExcalidrawFile) (now1 now2 : Time)
    (e : Errno) (hnew : osStat fs (metaPath dir d.Id) = Except.error e)
    (hsave : (SaveFile fs dir d now1 now2).2 = none) :
    ∃ r, storedRecord (SaveFile fs dir d now1 now2).1 dir d.Id = some r
      ∧ r.UpdatedAt = formatRFC3339 now2
      ∧ (d.CreatedAt = "" → r.CreatedAt = formatRFC3339 now1)
      ∧ (d.CreatedAt ≠ "" → r.CreatedAt = d.CreatedAt) := by
  obtain ⟨f1, h1, h2⟩ := storedRecord_after_save fs dir d now1 now2 hsave
  rw [preserveCreated_new fs dir d e hnew] at h1
  have hf : f1 = d := (Except.ok.inj h1).symm
  subst hf
  refine ⟨_, h2, rfl, ?_, ?_⟩
  · intro hempty
    simp [stampRecord, hempty]
  · intro hne
    simp [stampRecord, hne]

/-- C3, amended, at the empty store with both clock readings equal. -/
theorem C3_new_id_defaults_witness :
    ∃ r, storedRecord (SaveFile emptyStore storageDir fresh clockA clockA).1 storageDir fresh.Id
        = some r
      ∧ r.UpdatedAt = formatRFC3339 clockA
      ∧ (fresh.CreatedAt = "" → r.CreatedAt = formatRFC3339 clockA)
      ∧ (fresh.CreatedAt ≠ "" → r.CreatedAt = fresh.CreatedAt) :=
  C3_new_id_defaults emptyStore storageDir fresh clockA clockA Errno.ENOENT rfl (by decide)


theorem formatRFC3339_ne_empty (t : Time) : formatRFC3339 t ≠ "" := by
  intro h
  have h1 := congrArg String.length h
  simp [formatRFC3339, String.length] at h1

theorem preserveCreated_existing (fs : FS) (dir : Path) (d e : ExcalidrawFile)
    (h : storedRecord fs dir d.Id = some e) :
    preserveCreated fs dir d = Except.ok { d with CreatedAt := e.CreatedAt } := by
  unfold storedRecord at h
  unfold preserveCreated osStat
  unfold osReadFile at h ⊢
  cases hr : fs.resolve (metaPath dir d.Id) with
  | error x => simp [hr] at h
  | ok n =>
    cases n with
    | dir es => simp [hr] at h
    | file s =>
      simp only [hr] at h ⊢
      simp only [h]

theorem stampRecord_createdAt (f : ExcalidrawFile) (n1 n2 : Time) :
    (stampRecord f n1 n2).CreatedAt ≠ ""
    ∧ (f.CreatedAt ≠ "" → (stampRecord f n1 n2).CreatedAt = f.CreatedAt) := by
  unfold stampRecord
  by_cases h : f.CreatedAt = ""
  · simp [h, formatRFC3339_ne_empty]
  · simp [h]

theorem save_step_createdAt (fs : FS) (dir : Path) (d : ExcalidrawFile) (n1 n2 : Time)
    (h : (SaveFile fs dir d n1 n2).2 = none) :
    ∃ r, storedRecord (SaveFile fs dir d n1 n2).1 dir d.Id = some r
      ∧ r.CreatedAt ≠ ""
      ∧ ∀ e, storedRecord fs dir d.Id = some e → e.CreatedAt ≠ "" → r.CreatedAt = e.CreatedAt := by
  obtain ⟨f1, h1, h2⟩ := storedRecord_after_save fs dir d n1 n2 h
  refine ⟨_, h2, (stampRecord_createdAt f1 n1 n2).1, ?_⟩
  intro e he hne
  rw [preserveCreated_existing fs dir d e he] at h1
  have hf := (Except.ok.inj h1).symm
  subst hf
  exact (stampRecord_createdAt _ n1 n2).2 hne

theorem saveAll_createdAt (dir : Path) (id : String) (c : String) (hc : c ≠ "")
    (saves : List (ExcalidrawFile × Time × Time)) :
    ∀ (fs fs1 : FS) (e : ExcalidrawFile), storedRecord fs dir id = some e → e.CreatedAt = c →
      (∀ s ∈ saves, s.1.Id = id) → saveAll fs dir saves = some fs1 →
      ∃ r, storedRecord fs1 dir id = some r ∧ r.CreatedAt = c := by
  induction saves with
  | nil =>
    intro fs fs1 e he hec _ hall
    simp only [saveAll, Option.some.injEq] at hall
    subst hall
    exact ⟨e, he, hec⟩
  | cons s rest ih =>
    intro fs fs1 e he hec hid hall
    have hsid : s.1.Id = id := hid s (by simp)
    simp only [saveAll] at hall
    cases hs : SaveFile fs dir s.1 s.2.1 s.2.2 with
    | mk fs2 err =>
      cases err with
      | some x => simp [hs] at hall
      | none =>
        simp only [hs] at hall
        have hok : (SaveFile fs dir s.1 s.2.1 s.2.2).2 = none := by rw [hs]
        obtain ⟨r, hr1, _, hr3⟩ := save_step_createdAt fs dir s.1 s.2.1 s.2.2 hok
        rw [hsid, hs] at hr1
        have hrc : r.CreatedAt = c := by
          rw [hr3 e (by rw [hsid]; exact he) (by rw [hec]; exact hc), hec]
        exact ih fs2 fs1 r hr1 hrc (fun x hx => hid x (List.mem_cons_of_mem _ hx)) hall

/-- C2: in a run of successful saves of one id, the first save stores a
non-empty createdAt, which is the createdAt of the metadata file that existed
before whenever that file was decodable with a non-empty createdAt (whatever
createdAt the caller supplied), and after every later save of the run the
stored createdAt is still that value. -/
theorem C2_createdAt_preserved (fs fs1 : FS) (dir : Path) (id : String)
    (first : ExcalidrawFile × Time × Time) (rest : List (ExcalidrawFile × Time × Time))
    (hid : ∀ s ∈ first :: rest, s.1.Id = id)
    (hok : saveAll fs dir (first :: rest) = some fs1) :
    ∃ c, c ≠ ""
      ∧ (∃ r, storedRecord (SaveFile fs dir first.1 first.2.1 first.2.2).1 dir id = some r
          ∧ r.CreatedAt = c)
      ∧ (∃ r, storedRecord fs1 dir id = some r ∧ r.CreatedAt = c)
      ∧ ∀ e, storedRecord fs dir id = some e → e.CreatedAt ≠ "" → c = e.CreatedAt := by
  have hfid : first.1.Id = id := hid first (by simp)
  simp only [saveAll] at hok
  cases hs : SaveFile fs dir first.1 first.2.1 first.2.2 with
  | mk fs2 err =>
    cases err with
    | some x => simp [hs] at hok
    | none =>
      simp only [hs] at hok
      have hsave : (SaveFile fs dir first.1 first.2.1 first.2.2).2 = none := by rw [hs]
      obtain ⟨r, hr1, hr2, hr3⟩ := save_step_createdAt fs dir first.1 first.2.1 first.2.2 hsave
      rw [hfid, hs] at hr1
      refine ⟨r.CreatedAt, hr2, ⟨r, hr1, rfl⟩, ?_, ?_⟩
      · exact saveAll_createdAt dir id r.CreatedAt hr2 rest fs2 fs1 r hr1 rfl
          (fun x hx => hid x (List.mem_cons_of_mem _ hx)) hok
      · intro e he hne
        exact hr3 e (by rw [hfid]; exact he) hne

set_option maxRecDepth 100000 in
/-- C2 on a run of two saves of the id `abc`, the second by a caller who
supplies another creation date. -/
theorem C2_createdAt_preserved_witness :
    ∃ c, c ≠ ""
      ∧ (∃ r, storedRecord (SaveFile emptyStore storageDir fresh clockA clockA).1 storageDir "abc"
            = some r ∧ r.CreatedAt = c)
      ∧ (∃ r, storedRecord storeAfterSecond storageDir "abc" = some r ∧ r.CreatedAt = c)
      ∧ ∀ e, storedRecord emptyStore storageDir "abc" = some e → e.CreatedAt ≠ "" →
          c = e.CreatedAt :=
  C2_createdAt_preserved emptyStore storeAfterSecond storageDir "abc" (fresh, clockA, clockA)
    [(dated, clockC, clockC)]
    (by intro s hs; simp at hs; rcases hs with h | h <;> subst h <;> rfl) rfl


theorem listLoop_ok (fs : FS) (dir : Path) (names : List String) :
    ∀ (acc recs : List ExcalidrawFile), listLoop fs dir names acc = Except.ok recs →
      (∀ r ∈ acc, r ∈ recs)
      ∧ ∀ n ∈ names, hasSuffix n ".i.json" = true →
          ∃ data file, osReadFile fs (filepathJoin dir n) = Except.ok data
            ∧ jsonUnmarshal data = some file
            ∧ { file with InStorage := "local" } ∈ recs := by
  induction names with
  | nil =>
    intro acc recs h
    simp only [listLoop, Except.ok.injEq] at h
    subst h
    exact ⟨fun r hr => hr, fun n hn => absurd hn (List.not_mem_nil n)⟩
  | cons name rest ih =>
    intro acc recs h
    by_cases hs : hasSuffix name ".i.json" = true
    · simp only [listLoop, hs, if_true] at h
      cases hr : osReadFile fs (filepathJoin dir name) with
      | error e => simp [hr] at h
      | ok data =>
        simp only [hr] at h
        cases hu : jsonUnmarshal data with
        | none => simp [hu] at h
        | some file =>
          simp only [hu] at h
          obtain ⟨h1, h2⟩ := ih _ recs h
          refine ⟨fun r hr2 => h1 r (List.mem_append_left _ hr2), ?_⟩
          intro n hn hsn
          rcases List.mem_cons.mp hn with heq | hmem
          · subst heq
            exact ⟨data, file, hr, hu, h1 _ (List.mem_append_right _ (List.mem_singleton.mpr rfl))⟩
          · exact h2 n hmem hsn
    · simp only [listLoop, hs] at h
      obtain ⟨h1, h2⟩ := ih acc recs h
      refine ⟨h1, ?_⟩
      intro n hn hsn
      rcases List.mem_cons.mp hn with heq | hmem
      · subst heq
        exact absurd hsn hs
      · exact h2 n hmem hsn

theorem listLoop_total (fs : FS) (dir : Path) (names : List String)
    (hall : ∀ n ∈ names, hasSuffix n ".i.json" = true →
      ∃ data file, osReadFile fs (filepathJoin dir n) = Except.ok data
        ∧ jsonUnmarshal data = some file) :
    ∀ acc : List ExcalidrawFile, ∃ recs, listLoop fs dir names acc = Except.ok recs := by
  induction names with
  | nil => intro acc; exact ⟨acc, rfl⟩
  | cons name rest ih =>
    intro acc
    have ih1 := ih (fun n hn hs => hall n (List.mem_cons_of_mem _ hn) hs)
    by_cases hs : hasSuffix name ".i.json" = true
    · obtain ⟨data, file, hr, hu⟩ := hall name (List.mem_cons_self _ _) hs
      obtain ⟨recs, hrecs⟩ := ih1 (acc ++ [{ file with InStorage := "local" }])
      exact ⟨recs, by simp only [listLoop, hs, if_true, hr, hu, hrecs]⟩
    · obtain ⟨recs, hrecs⟩ := ih1 acc
      exact ⟨recs, by simp only [listLoop, hs, hrecs]; rfl⟩

theorem DeleteFile_ok (fs : FS) (dir : Path) (id : String)
    (h : (DeleteFile fs dir id).2 = none) :
    (DeleteFile fs dir id).1.resolve (metaPath dir id) = Except.error Errno.ENOENT
    ∧ (DeleteFile fs dir id).1.resolve (dataPath dir id) = Except.error Errno.ENOENT := by
  unfold DeleteFile at h ⊢
  cases h1 : osRemove fs (metaPath dir id) with
  | error e => simp [h1] at h
  | ok fs1 =>
    simp only [h1] at h ⊢
    cases h2 : osRemove fs1 (dataPath dir id) with
    | error e => simp [h2] at h
    | ok fs2 =>
      simp only [h2]
      rw [metaPath_eq] at h1 ⊢
      rw [dataPath_eq] at h2 ⊢
      refine ⟨?_, resolve_after_remove _ _ _ _ h2⟩
      rw [resolve_after_remove_ne fs1 fs2 _ _ _ h2 (metaName_ne_dataName _ _)]
      exact resolve_after_remove _ _ _ _ h1

/-- C6: if `DeleteFile(id)` returns without error, then in the resulting store
neither the metadata file nor the content file of the id exists, `GetFile(id)`
fails with a not-found error, and a successful `ListFiles` reads no directory
entry that is the metadata file of the id. -/
theorem C6_delete_removes_both (fs : FS) (dir : Path) (id : String)
    (hdel : (DeleteFile fs dir id).2 = none) :
    (DeleteFile fs dir id).1.resolve (metaPath dir id) = Except.error Errno.ENOENT
    ∧ (DeleteFile fs dir id).1.resolve (dataPath dir id) = Except.error Errno.ENOENT
    ∧ (∃ e, GetFile (DeleteFile fs dir id).1 dir id = Except.error e ∧ e.isNotExist = true)
    ∧ ∀ recs names, ListFiles (DeleteFile fs dir id).1 dir = Except.ok recs →
        osReadDir (DeleteFile fs dir id).1 dir = Except.ok names →
        ∀ n ∈ names, hasSuffix n ".i.json" = true → filepathJoin dir n ≠ metaPath dir id := by
  obtain ⟨h1, h2⟩ := DeleteFile_ok fs dir id hdel
  refine ⟨h1, h2, ?_, ?_⟩
  · refine ⟨StoreError.readFile Errno.ENOENT, ?_, rfl⟩
    unfold GetFile osReadFile
    rw [h1]
  · intro recs names hl hn n hmem hs heq
    unfold ListFiles at hl
    rw [hn] at hl
    obtain ⟨data, _, hr, _⟩ := (listLoop_ok _ dir names [] recs hl).2 n hmem hs
    rw [heq] at hr
    unfold osReadFile at hr
    rw [h1] at hr
    exact Except.noConfusion hr

/-- C6 on the store after the first save of `fresh`. -/
theorem C6_delete_removes_both_witness :
    (DeleteFile storeAfterFirst storageDir "abc").1.resolve (metaPath storageDir "abc")
      = Except.error Errno.ENOENT
    ∧ (DeleteFile storeAfterFirst storageDir "abc").1.resolve (dataPath storageDir "abc")
      = Except.error Errno.ENOENT
    ∧ (∃ e, GetFile (DeleteFile storeAfterFirst storageDir "abc").1 storageDir "abc"
          = Except.error e ∧ e.isNotExist = true)
    ∧ ∀ recs names, ListFiles (DeleteFile storeAfterFirst storageDir "abc").1 storageDir
          = Except.ok recs →
        osReadDir (DeleteFile storeAfterFirst storageDir "abc").1 storageDir = Except.ok names →
        ∀ n ∈ names, hasSuffix n ".i.json" = true →
          filepathJoin storageDir n ≠ metaPath storageDir "abc" :=
  C6_delete_removes_both storeAfterFirst storageDir "abc" (by decide)

theorem SaveFile_frame (fs : FS) (dir : Path) (d : ExcalidrawFile) (n1 n2 : Time)
    (base : Path) (mn dn m : String) (hm : metaPath dir d.Id = base ++ [mn])
    (hdn : dataPath dir d.Id = base ++ [dn]) (h1 : m ≠ mn) (h2 : m ≠ dn) :
    (SaveFile fs dir d n1 n2).1.resolve (base ++ [m]) = fs.resolve (base ++ [m]) := by
  unfold SaveFile
  cases hp : preserveCreated fs dir d with
  | error e => rfl
  | ok f1 =>
    simp only []
    cases hw : osWriteFile fs (dataPath dir d.Id) f1.Data with
    | error e => rfl
    | ok fs1 =>
      simp only []
      rw [hdn] at hw
      have e1 := resolve_after_write_ne fs fs1 base dn m _ hw h2
      cases hw2 : osWriteFile fs1 (metaPath dir d.Id) (jsonMarshal (stampRecord f1 n1 n2)) with
      | error e => exact e1
      | ok fs2 =>
        simp only []
        rw [hm] at hw2
        rw [resolve_after_write_ne fs1 fs2 base mn m _ hw2 h1]
        exact e1

theorem DeleteFile_frame (fs : FS) (dir : Path) (id : String)
    (base : Path) (mn dn m : String) (hm : metaPath dir id = base ++ [mn])
    (hdn : dataPath dir id = base ++ [dn]) (h1 : m ≠ mn) (h2 : m ≠ dn) :
    (DeleteFile fs dir id).1.resolve (base ++ [m]) = fs.resolve (base ++ [m]) := by
  unfold DeleteFile
  cases hr : osRemove fs (metaPath dir id) with
  | error e => rfl
  | ok fs1 =>
    simp only []
    rw [hm] at hr
    have e1 := resolve_after_remove_ne fs fs1 base mn m hr h1
    cases hr2 : osRemove fs1 (dataPath dir id) with
    | error e => exact e1
    | ok fs2 =>
      simp only []
      rw [hdn] at hr2
      rw [resolve_after_remove_ne fs1 fs2 base dn m hr2 h2]
      exact e1

theorem GetFile_congr (fs fs1 : FS) (dir : Path) (id : String)
    (h1 : fs1.resolve (metaPath dir id) = fs.resolve (metaPath dir id))
    (h2 : fs1.resolve (dataPath dir id) = fs.resolve (dataPath dir id)) :
    GetFile fs1 dir id = GetFile fs dir id := by
  unfold GetFile
  rw [osReadFile_congr fs fs1 _ h1, osReadFile_congr fs fs1 _ h2]

theorem metaName_ne (a b : String) (h : a ≠ b) : a ++ ".i.json" ≠ b ++ ".i.json" :=
  fun e => h (append_suffix_inj a b _ e)

theorem dataName_ne (a b : String) (h : a ≠ b) : a ++ ".excalidraw" ≠ b ++ ".excalidraw" :=
  fun e => h (append_suffix_inj a b _ e)

theorem metaName_ne_dataName_str (a b : String) : a ++ ".i.json" ≠ b ++ ".excalidraw" :=
  metaName_ne_dataName a.data b.data

theorem path_snoc_ne (base : Path) (x y : String) (h : x ≠ y) : base ++ [x] ≠ base ++ [y] := by
  intro e
  have := List.append_cancel_left e
  simp at this
  exact h this

/-- C10: for two distinct ids `a` and `b` without a path separator, the two
paths of `a` differ from the two paths of `b` and from each other, so
`SaveFile` of a document with id `a` and `DeleteFile(a)`, whether they succeed
or not, leave both files of `b` as they were, and `GetFile(b)` returns the same
result before and after. -/
theorem C10_other_document_untouched (fs : FS) (dir : Path) (a b : String) (d : ExcalidrawFile)
    (now1 now2 : Time) (hab : a ≠ b) (ha : noSeparator a) (hb : noSeparator b)
    (hd : d.Id = a) :
    (metaPath dir a ≠ metaPath dir b ∧ metaPath dir a ≠ dataPath dir b
      ∧ dataPath dir a ≠ metaPath dir b ∧ dataPath dir a ≠ dataPath dir b
      ∧ metaPath dir a ≠ dataPath dir a)
    ∧ ((SaveFile fs dir d now1 now2).1.resolve (metaPath dir b) = fs.resolve (metaPath dir b)
      ∧ (SaveFile fs dir d now1 now2).1.resolve (dataPath dir b) = fs.resolve (dataPath dir b)
      ∧ GetFile (SaveFile fs dir d now1 now2).1 dir b = GetFile fs dir b)
    ∧ ((DeleteFile fs dir a).1.resolve (metaPath dir b) = fs.resolve (metaPath dir b)
      ∧ (DeleteFile fs dir a).1.resolve (dataPath dir b) = fs.resolve (dataPath dir b)
      ∧ GetFile (DeleteFile fs dir a).1 dir b = GetFile fs dir b) := by
  have pma := metaPath_noSeparator dir a ha
  have pda := dataPath_noSeparator dir a ha
  have pmb := metaPath_noSeparator dir b hb
  have pdb := dataPath_noSeparator dir b hb
  have hba : b ≠ a := Ne.symm hab
  have s1 : (SaveFile fs dir d now1 now2).1.resolve (metaPath dir b)
      = fs.resolve (metaPath dir b) := by
    rw [pmb]
    exact SaveFile_frame fs dir d now1 now2 dir _ _ _ (by rw [hd]; exact pma)
      (by rw [hd]; exact pda) (metaName_ne b a hba) (metaName_ne_dataName_str b a)
  have s2 : (SaveFile fs dir d now1 now2).1.resolve (dataPath dir b)
      = fs.resolve (dataPath dir b) := by
    rw [pdb]
    exact SaveFile_frame fs dir d now1 now2 dir _ _ _ (by rw [hd]; exact pma)
      (by rw [hd]; exact pda) (Ne.symm (metaName_ne_dataName_str a b)) (dataName_ne b a hba)
  have d1 : (DeleteFile fs dir a).1.resolve (metaPath dir b) = fs.resolve (metaPath dir b) := by
    rw [pmb]
    exact DeleteFile_frame fs dir a dir _ _ _ pma pda (metaName_ne b a hba)
      (metaName_ne_dataName_str b a)
  have d2 : (DeleteFile fs dir a).1.resolve (dataPath dir b) = fs.resolve (dataPath dir b) := by
    rw [pdb]
    exact DeleteFile_frame fs dir a dir _ _ _ pma pda (Ne.symm (metaName_ne_dataName_str a b))
      (dataName_ne b a hba)
  refine ⟨⟨?_, ?_, ?_, ?_, ?_⟩, ⟨s1, s2, GetFile_congr _ _ dir b s1 s2⟩,
    ⟨d1, d2, GetFile_congr _ _ dir b d1 d2⟩⟩
  · rw [pma, pmb]; exact path_snoc_ne dir _ _ (metaName_ne a b hab)
  · rw [pma, pdb]; exact path_snoc_ne dir _ _ (metaName_ne_dataName_str a b)
  · rw [pda, pmb]; exact path_snoc_ne dir _ _ (Ne.symm (metaName_ne_dataName_str b a))
  · rw [pda, pdb]; exact path_snoc_ne dir _ _ (dataName_ne a b hab)
  · rw [pma, pda]; exact path_snoc_ne dir _ _ (metaName_ne_dataName_str a a)

/-- C10 on the store that holds the document `abc`, for a second id `xyz`. -/
theorem C10_other_document_untouched_witness :
    (metaPath storageDir "xyz" ≠ metaPath storageDir "abc"
      ∧ metaPath storageDir "xyz" ≠ dataPath storageDir "abc"
      ∧ dataPath storageDir "xyz" ≠ metaPath storageDir "abc"
      ∧ dataPath storageDir "xyz" ≠ dataPath storageDir "abc"
      ∧ metaPath storageDir "xyz" ≠ dataPath storageDir "xyz")
    ∧ ((SaveFile storeAfterFirst storageDir other clockC clockC).1.resolve
          (metaPath storageDir "abc") = storeAfterFirst.resolve (metaPath storageDir "abc")
      ∧ (SaveFile storeAfterFirst storageDir other clockC clockC).1.resolve
          (dataPath storageDir "abc") = storeAfterFirst.resolve (dataPath storageDir "abc")
      ∧ GetFile (SaveFile storeAfterFirst storageDir other clockC clockC).1 storageDir "abc"
          = GetFile storeAfterFirst storageDir "abc")
    ∧ ((DeleteFile storeAfterFirst storageDir "xyz").1.resolve (metaPath storageDir "abc")
          = storeAfterFirst.resolve (metaPath storageDir "abc")
      ∧ (DeleteFile storeAfterFirst storageDir "xyz").1.resolve (dataPath storageDir "abc")
          = storeAfterFirst.resolve (dataPath storageDir "abc")
      ∧ GetFile (DeleteFile storeAfterFirst storageDir "xyz").1 storageDir "abc"
          = GetFile storeAfterFirst storageDir "abc") :=
  C10_other_document_untouched storeAfterFirst storageDir "xyz" "abc" other clockC clockC
    (by decide) (by decide) (by decide) rfl


theorem resolve_snoc_ok (base : Path) (m : String) :
    ∀ (fs x : Node), fs.resolve (base ++ [m]) = Except.ok x →
      ∃ es, fs.resolve base = Except.ok (Node.dir es) ∧ assocGet m es = some x := by
  induction base with
  | nil =>
    intro fs x h
    cases fs with
    | file s => simp [Node.resolve] at h
    | dir es =>
      refine ⟨es, rfl, ?_⟩
      rw [List.nil_append, resolve_dir_singleton] at h
      unfold childOf at h
      cases hg : assocGet m es with
      | none => simp [hg] at h
      | some y => simp only [hg, Except.ok.injEq] at h; rw [h]
  | cons c p ih =>
    intro fs x h
    cases fs with
    | file s => simp [Node.resolve] at h
    | dir es0 =>
      cases hg : assocGet c es0 with
      | none => simp [Node.resolve, hg] at h
      | some n =>
        simp only [List.cons_append, Node.resolve, hg] at h
        obtain ⟨es, h1, h2⟩ := ih n x h
        exact ⟨es, by simp only [Node.resolve, hg]; exact h1, h2⟩

theorem mem_osReadDir (fs : FS) (dir : Path) (es : List (String × Node)) (m : String) (x : Node)
    (h1 : fs.resolve dir = Except.ok (Node.dir es)) (h2 : assocGet m es = some x) :
    ∃ names, osReadDir fs dir = Except.ok names ∧ m ∈ names := by
  refine ⟨_, by unfold osReadDir; rw [h1], ?_⟩
  rw [(List.perm_insertionSort _ _).mem_iff]
  exact (assocGet_isSome_iff m es).mp ⟨x, h2⟩

theorem hasSuffix_append (a s : String) : hasSuffix (a ++ s) s = true := by
  unfold hasSuffix
  simp [String.data_append]

theorem osReadFile_ok_resolve (fs : FS) (p : Path) (s : String)
    (h : osReadFile fs p = Except.ok s) : fs.resolve p = Except.ok (Node.file s) := by
  unfold osReadFile at h
  cases hr : fs.resolve p with
  | error e => simp [hr] at h
  | ok n =>
    cases n with
    | dir es => simp [hr] at h
    | file c => simp only [hr, Except.ok.injEq] at h; rw [h]

/-- C5, as stated, fails: saving `outside`, whose id is `../x`, into a store
with an empty storage directory succeeds, and `ListFiles` then succeeds with an
empty list, so it returns no record for that id. -/
theorem C5_escaping_id_not_listed :
    (SaveFile emptyStore storageDir outside clockA clockA).2 = none
    ∧ ListFiles (SaveFile emptyStore storageDir outside clockA clockA).1 storageDir
        = Except.ok [] := by
  exact ⟨by decide, rfl⟩

/-- C5, amended: for a document `d` whose id contains no path separator,
after a successful `SaveFile(d)` a successful `ListFiles` returns a record with
the id of `d` whose content is empty, which carries the name, thumbnail and
isPublic of `d` and the location `local`. -/
theorem C5_list_excludes_content (fs : FS) (dir : Path) (d : ExcalidrawFile) (now1 now2 : Time)
    (recs : List ExcalidrawFile) (hid : noSeparator d.Id)
    (hsave : (SaveFile fs dir d now1 now2).2 = none)
    (hlist : ListFiles (SaveFile fs dir d now1 now2).1 dir = Except.ok recs) :
    ∃ r ∈ recs, r.Id = d.Id ∧ r.Data = "" ∧ r.Name = d.Name ∧ r.Thumbnail = d.Thumbnail
      ∧ r.IsPublic = d.IsPublic ∧ r.InStorage = "local" := by
  obtain ⟨f1, h1, h2, _⟩ := SaveFile_ok fs dir d now1 now2 hsave
  obtain ⟨c, hc⟩ := preserveCreated_eq fs dir d f1 h1
  have hres := osReadFile_ok_resolve _ _ _ h2
  rw [metaPath_noSeparator dir d.Id hid] at hres
  obtain ⟨es, he1, he2⟩ := resolve_snoc_ok dir _ _ _ hres
  obtain ⟨names, hn1, hn2⟩ := mem_osReadDir _ dir es _ _ he1 he2
  unfold ListFiles at hlist
  rw [hn1] at hlist
  obtain ⟨data, file, hr, hu, hmem⟩ :=
    (listLoop_ok _ dir names [] recs hlist).2 _ hn2 (hasSuffix_append _ _)
  have hpath : filepathJoin dir (d.Id ++ ".i.json") = metaPath dir d.Id := rfl
  rw [hpath, h2] at hr
  have hdata := (Except.ok.inj hr).symm
  subst hdata
  rw [jsonUnmarshal_jsonMarshal] at hu
  have hfile := (Option.some.inj hu).symm
  subst hfile
  subst hc
  exact ⟨_, hmem, rfl, rfl, rfl, rfl, rfl, rfl⟩

/-- C5, amended, on the empty store. -/
theorem C5_list_excludes_content_witness :
    ∃ r ∈ [{ stampRecord fresh clockA clockA with InStorage := "local" }],
      r.Id = fresh.Id ∧ r.Data = "" ∧ r.Name = fresh.Name ∧ r.Thumbnail = fresh.Thumbnail
      ∧ r.IsPublic = fresh.IsPublic ∧ r.InStorage = "local" :=
  C5_list_excludes_content emptyStore storageDir fresh clockA clockA _ (by decide) (by decide)
    (by
      unfold ListFiles
      have h : osReadDir (SaveFile emptyStore storageDir fresh clockA clockA).1 storageDir
          = Except.ok ["abc.excalidraw", "abc.i.json"] := rfl
      have h2 : osReadFile (SaveFile emptyStore storageDir fresh clockA clockA).1
          (filepathJoin storageDir "abc.i.json")
          = Except.ok (jsonMarshal (stampRecord fresh clockA clockA)) := rfl
      have h3 : hasSuffix "abc.excalidraw" ".i.json" = false := by decide
      have h4 : hasSuffix "abc.i.json" ".i.json" = true := by decide
      rw [h]
      simp only [listLoop, h2, h3, h4, jsonUnmarshal_jsonMarshal, if_true, List.nil_append]
      rfl)

/-- C7, as stated, fails: in `strayStore` the metadata file of the id `../x`
exists and decodes, its content file does not exist, and `ListFiles` succeeds
with an empty list, so it does not include the record of that metadata file. -/
theorem C7_escaping_id_not_listed :
    storedRecord strayStore storageDir "../x" = some outside
    ∧ strayStore.resolve (dataPath storageDir "../x") = Except.error Errno.ENOENT
    ∧ ListFiles strayStore storageDir = Except.ok [] := by
  refine ⟨?_, rfl, rfl⟩
  have h : osReadFile strayStore (metaPath storageDir "../x")
      = Except.ok (jsonMarshal outside) := rfl
  unfold storedRecord
  rw [h]
  exact jsonUnmarshal_jsonMarshal outside

/-- C7, amended: for an id without a path separator whose metadata file
exists and decodes to `e` while its content file does not exist, `GetFile(id)`
fails with a not-found error, and `ListFiles`, when every other metadata file
of the directory can be read and decoded, succeeds and includes `e` tagged with
the location `local`. -/
theorem C7_missing_content_half (fs : FS) (dir : Path) (id content : String)
    (e : ExcalidrawFile) (hid : noSeparator id)
    (hmeta : osReadFile fs (metaPath dir id) = Except.ok content)
    (hdec : jsonUnmarshal content = some e)
    (hnodata : ∀ x, fs.resolve (dataPath dir id) ≠ Except.ok x)
    (hothers : ∀ names, osReadDir fs dir = Except.ok names →
      ∀ n ∈ names, hasSuffix n ".i.json" = true → n ≠ id ++ ".i.json" →
        ∃ data file, osReadFile fs (filepathJoin dir n) = Except.ok data
          ∧ jsonUnmarshal data = some file) :
    (∃ err, GetFile fs dir id = Except.error err ∧ err.isNotExist = true)
    ∧ ∃ recs, ListFiles fs dir = Except.ok recs ∧ { e with InStorage := "local" } ∈ recs := by
  have hres := osReadFile_ok_resolve _ _ _ hmeta
  rw [metaPath_noSeparator dir id hid] at hres
  obtain ⟨es, he1, he2⟩ := resolve_snoc_ok dir _ _ _ hres
  obtain ⟨names, hn1, hn2⟩ := mem_osReadDir _ dir es _ _ he1 he2
  have hpath : filepathJoin dir (id ++ ".i.json") = metaPath dir id := rfl
  constructor
  · have hd : fs.resolve (dataPath dir id) = Except.error Errno.ENOENT := by
      have hx := hnodata
      rw [dataPath_noSeparator dir id hid, resolve_child fs dir es _ he1] at hx ⊢
      unfold childOf at hx ⊢
      cases hg : assocGet (id ++ ".excalidraw") es with
      | none => rfl
      | some y => exact absurd (by simp only [hg]) (hx y)
    refine ⟨StoreError.readData Errno.ENOENT, ?_, rfl⟩
    unfold GetFile
    rw [hmeta]
    simp only [hdec]
    unfold osReadFile
    rw [hd]
  · have hall : ∀ n ∈ names, hasSuffix n ".i.json" = true →
        ∃ data file, osReadFile fs (filepathJoin dir n) = Except.ok data
          ∧ jsonUnmarshal data = some file := by
      intro n hn hs
      by_cases hnid : n = id ++ ".i.json"
      · subst hnid
        exact ⟨content, e, by rw [hpath]; exact hmeta, hdec⟩
      · exact hothers names hn1 n hn hs hnid
    obtain ⟨recs, hrecs⟩ := listLoop_total fs dir names hall []
    refine ⟨recs, by unfold ListFiles; rw [hn1]; exact hrecs, ?_⟩
    obtain ⟨data, file, hr, hu, hmem⟩ :=
      (listLoop_ok fs dir names [] recs hrecs).2 _ hn2 (hasSuffix_append _ _)
    rw [hpath, hmeta] at hr
    have hdata := (Except.ok.inj hr).symm
    subst hdata
    rw [hdec] at hu
    have hfile := (Option.some.inj hu).symm
    subst hfile
    exact hmem

/-- C7, amended, on a store that holds only the metadata file of `abc`. -/
theorem C7_missing_content_half_witness :
    (∃ err, GetFile orphanStore storageDir "abc" = Except.error err ∧ err.isNotExist = true)
    ∧ ∃ recs, ListFiles orphanStore storageDir = Except.ok recs
        ∧ { fresh with InStorage := "local" } ∈ recs :=
  C7_missing_content_half orphanStore storageDir "abc" (jsonMarshal fresh) fresh (by decide) rfl
    (jsonUnmarshal_jsonMarshal fresh)
    (by
      intro x h
      have h2 : orphanStore.resolve (dataPath storageDir "abc")
          = Except.error Errno.ENOENT := rfl
      rw [h2] at h
      exact Except.noConfusion h)
    (by
      intro names hn n hmem hs hne
      have h2 : osReadDir orphanStore storageDir = Except.ok ["abc.i.json"] := rfl
      rw [h2] at hn
      have h3 := (Except.ok.inj hn).symm
      subst h3
      have h4 : n = "abc.i.json" := by simpa using hmem
      exact absurd (by rw [h4]; decide) hne)


theorem preserveCreated_inStorage (fs : FS) (dir : Path) (d f1 : ExcalidrawFile) (s : String)
    (h : preserveCreated fs dir d = Except.ok f1) :
    preserveCreated fs dir { d with InStorage := s } = Except.ok { f1 with InStorage := s } := by
  unfold preserveCreated at h ⊢
  cases hst : osStat fs (metaPath dir d.Id) with
  | error e =>
    simp only [hst, Except.ok.injEq] at h ⊢
    rw [← h]
  | ok u =>
    cases hrd : osReadFile fs (metaPath dir d.Id) with
    | error e => simp [hst, hrd] at h
    | ok c =>
      cases hdec : jsonUnmarshal c with
      | none =>
        simp only [hst, hrd, hdec, Except.ok.injEq] at h ⊢
        rw [← h]
      | some ex =>
        simp only [hst, hrd, hdec, Except.ok.injEq] at h ⊢
        rw [← h]

theorem write_ok_indep (fs fs1 : FS) (base : Path) (n s s2 : String)
    (h : osWriteFile fs (base ++ [n]) s = Except.ok fs1) :
    ∃ fs2, osWriteFile fs (base ++ [n]) s2 = Except.ok fs2 := by
  unfold osWriteFile Node.write at h ⊢
  simp only [List.getLast?_concat, List.dropLast_concat] at h ⊢
  obtain ⟨es, es1, h1, h2, _⟩ := modifyDir_ok fs fs1 base _ h
  have h3 : writeEntry n s2 es = Except.ok (assocSet n (Node.file s2) es) := by
    unfold writeEntry at h2 ⊢
    split at h2
    · simp at h2
    · rfl
  exact modifyDir_ok_of fs base _ es h1 _ h3

theorem SaveFile_ok_inStorage (fs : FS) (dir : Path) (d : ExcalidrawFile) (s : String)
    (n1 n2 : Time) (h : (SaveFile fs dir d n1 n2).2 = none) :
    (SaveFile fs dir { d with InStorage := s } n1 n2).2 = none := by
  unfold SaveFile at h ⊢
  cases hp : preserveCreated fs dir d with
  | error e => simp [hp] at h
  | ok f1 =>
    simp only [hp, preserveCreated_inStorage fs dir d f1 s hp] at h ⊢
    cases hw : osWriteFile fs (dataPath dir d.Id) f1.Data with
    | error e => simp [hw] at h
    | ok fs1 =>
      simp only [hw] at h ⊢
      cases hw2 : osWriteFile fs1 (metaPath dir d.Id) (jsonMarshal (stampRecord f1 n1 n2)) with
      | error e => simp [hw2] at h
      | ok fs2 =>
        rw [metaPath_eq] at hw2 ⊢
        obtain ⟨fs3, h3⟩ := write_ok_indep fs1 fs2 _ _ _
          (jsonMarshal (stampRecord { f1 with InStorage := s } n1 n2)) hw2
        simp only [h3]

/-- C9, as stated, fails: `draft` and `fresh` differ only in their location
value, both saves into the empty store at the same clock reading succeed, and
the two metadata files written differ. -/
theorem C9_location_is_persisted :
    draft = { fresh with InStorage := "remote" }
    ∧ osReadFile (SaveFile emptyStore storageDir draft clockA clockA).1
        (metaPath storageDir "abc") = Except.ok (jsonMarshal (stampRecord draft clockA clockA))
    ∧ osReadFile (SaveFile emptyStore storageDir fresh clockA clockA).1
        (metaPath storageDir "abc") = Except.ok (jsonMarshal (stampRecord fresh clockA clockA))
    ∧ jsonMarshal (stampRecord draft clockA clockA)
        ≠ jsonMarshal (stampRecord fresh clockA clockA) := by
  exact ⟨rfl, rfl, rfl, by decide⟩

/-- C9, amended: the metadata file written by `SaveFile` holds the fields id,
userId, name, thumbnail, createdAt, updatedAt, isPublic and also inStorage, as
the caller supplied it.  For two documents that differ only in their location
value, if the save of one succeeds then so does the save of the other, the
two metadata files decode to records that differ only in inStorage, and
`GetFile` returns the same record from both resulting stores. -/
theorem C9_location_only_in_tag (fs : FS) (dir : Path) (d : ExcalidrawFile) (s : String)
    (now1 now2 : Time) (hsave : (SaveFile fs dir d now1 now2).2 = none) :
    (SaveFile fs dir { d with InStorage := s } now1 now2).2 = none
    ∧ ∃ r, storedRecord (SaveFile fs dir d now1 now2).1 dir d.Id = some r
        ∧ r.InStorage = d.InStorage
        ∧ storedRecord (SaveFile fs dir { d with InStorage := s } now1 now2).1 dir d.Id
            = some { r with InStorage := s }
        ∧ GetFile (SaveFile fs dir d now1 now2).1 dir d.Id
            = GetFile (SaveFile fs dir { d with InStorage := s } now1 now2).1 dir d.Id := by
  have hsave2 := SaveFile_ok_inStorage fs dir d s now1 now2 hsave
  obtain ⟨f1, h1, h2⟩ := storedRecord_after_save fs dir d now1 now2 hsave
  obtain ⟨f2, k1, k2⟩ := storedRecord_after_save fs dir { d with InStorage := s } now1 now2 hsave2
  obtain ⟨g1, g2, g3⟩ := GetFile_after_save fs dir d now1 now2 hsave
  obtain ⟨g4, g5, g6⟩ := GetFile_after_save fs dir { d with InStorage := s } now1 now2 hsave2
  obtain ⟨c, hc⟩ := preserveCreated_eq fs dir d f1 h1
  have e2 := preserveCreated_inStorage fs dir d f1 s h1
  rw [e2] at k1 g5
  rw [h1] at g2
  have hf2 := (Except.ok.inj k1).symm
  have hg1 := (Except.ok.inj g2).symm
  have hg4 := (Except.ok.inj g5).symm
  subst hf2 hg1 hg4
  refine ⟨hsave2, _, h2, ?_, k2, ?_⟩
  · rw [hc]; rfl
  · rw [g3]; exact g6.symm

/-- C9, amended, for `fresh` saved with the location `remote` instead. -/
theorem C9_location_only_in_tag_witness :
    (SaveFile emptyStore storageDir { fresh with InStorage := "remote" } clockA clockA).2 = none
    ∧ ∃ r, storedRecord (SaveFile emptyStore storageDir fresh clockA clockA).1 storageDir
            fresh.Id = some r
        ∧ r.InStorage = fresh.InStorage
        ∧ storedRecord (SaveFile emptyStore storageDir { fresh with InStorage := "remote" }
              clockA clockA).1 storageDir fresh.Id = some { r with InStorage := "remote" }
        ∧ GetFile (SaveFile emptyStore storageDir fresh clockA clockA).1 storageDir fresh.Id
            = GetFile (SaveFile emptyStore storageDir { fresh with InStorage := "remote" }
                clockA clockA).1 storageDir fresh.Id :=
  C9_location_only_in_tag emptyStore storageDir fresh "remote" clockA clockA (by decide)


/-! ## The order of RFC 3339 renderings -/

theorem digitChar_lt : ∀ d e : Fin 10, d < e → digitChar d.val < digitChar e.val := by decide

theorem digitChar_lt_of (d e : Nat) (h : d < e) (he : e < 10) : digitChar d < digitChar e :=
  digitChar_lt ⟨d, by omega⟩ ⟨e, he⟩ h

theorem chars_lt_head (a b : Char) (as bs : List Char) (h : a < b) : a :: as < b :: bs :=
  List.Lex.rel h

theorem chars_lt_tail (a : Char) (as bs : List Char) (h : as < bs) : a :: as < a :: bs :=
  List.Lex.cons h

theorem chars_lt_append (p as bs : List Char) (h : as < bs) : p ++ as < p ++ bs := by
  induction p with
  | nil => exact h
  | cons c cs ih => exact chars_lt_tail c _ _ ih

theorem appendInt2_lt (n m : Nat) (h : n < m) (hm : m < 100) (s t : List Char) :
    appendInt n 2 ++ s < appendInt m 2 ++ t := by
  have hn : n < 100 := by omega
  simp only [appendInt, hn, hm, and_self, if_true, List.cons_append, List.nil_append]
  by_cases h1 : n / 10 < m / 10
  · exact chars_lt_head _ _ _ _ (digitChar_lt_of _ _ h1 (by omega))
  · have h2 : n / 10 = m / 10 := by omega
    rw [h2]
    exact chars_lt_tail _ _ _ (chars_lt_head _ _ _ _ (digitChar_lt_of _ _ (by omega) (by omega)))

theorem appendInt4_lt (n m : Nat) (h : n < m) (hm : m < 10000) (s t : List Char) :
    appendInt n 4 ++ s < appendInt m 4 ++ t := by
  have hn : n < 10000 := by omega
  have e4 : ¬ ((4 : Nat) = 2 ∧ n < 100) := by omega
  have e4m : ¬ ((4 : Nat) = 2 ∧ m < 100) := by omega
  simp only [appendInt, e4, e4m, hn, hm, and_self, if_true, if_false, List.cons_append,
    List.nil_append]
  by_cases h1 : n / 1000 < m / 1000
  · exact chars_lt_head _ _ _ _ (digitChar_lt_of _ _ h1 (by omega))
  · have e1 : n / 1000 = m / 1000 := by omega
    rw [e1]
    apply chars_lt_tail
    by_cases h2 : n / 100 % 10 < m / 100 % 10
    · exact chars_lt_head _ _ _ _ (digitChar_lt_of _ _ h2 (by omega))
    · have e2 : n / 100 % 10 = m / 100 % 10 := by omega
      rw [e2]
      apply chars_lt_tail
      by_cases h3 : n / 10 % 10 < m / 10 % 10
      · exact chars_lt_head _ _ _ _ (digitChar_lt_of _ _ h3 (by omega))
      · have e3 : n / 10 % 10 = m / 10 % 10 := by omega
        rw [e3]
        apply chars_lt_tail
        exact chars_lt_head _ _ _ _ (digitChar_lt_of _ _ (by omega) (by omega))

theorem formatRFC3339_data (t : Time) :
    (formatRFC3339 t).data = appendInt t.year 4 ++ ('-' :: (appendInt t.month 2 ++ ('-' ::
      (appendInt t.day 2 ++ ('T' :: (appendInt t.hour 2 ++ (':' :: (appendInt t.minute 2 ++
      (':' :: (appendInt t.second 2 ++ formatZone t.offset)))))))))) := by
  simp [formatRFC3339]

theorem formatRFC3339_lt (a b : Time) (ha : a.valid) (hb : b.valid) (h : a.laterSecond b) :
    formatRFC3339 a < formatRFC3339 b := by
  rw [String.lt_iff_toList_lt]
  show (formatRFC3339 a).data < (formatRFC3339 b).data
  rw [formatRFC3339_data, formatRFC3339_data]
  obtain ⟨ho, hl⟩ := h
  obtain ⟨a1, a2, a3, a4, a5, a6, a7, a8, a9⟩ := ha
  obtain ⟨b1, b2, b3, b4, b5, b6, b7, b8, b9⟩ := hb
  simp only [Time.civil, lexLt, Bool.or_eq_true, Bool.and_eq_true, decide_eq_true_eq,
    Bool.or_false, Bool.and_false, or_false] at hl
  rcases hl with hy | ⟨ey, hl⟩
  · exact appendInt4_lt _ _ hy (by omega) _ _
  rw [ey]
  apply chars_lt_append; apply chars_lt_tail
  rcases hl with hm | ⟨em, hl⟩
  · exact appendInt2_lt _ _ hm (by omega) _ _
  rw [em]
  apply chars_lt_append; apply chars_lt_tail
  rcases hl with hd | ⟨ed, hl⟩
  · exact appendInt2_lt _ _ hd (by omega) _ _
  rw [ed]
  apply chars_lt_append; apply chars_lt_tail
  rcases hl with hh | ⟨eh, hl⟩
  · exact appendInt2_lt _ _ hh (by omega) _ _
  rw [eh]
  apply chars_lt_append; apply chars_lt_tail
  rcases hl with hmi | ⟨emi, hl⟩
  · exact appendInt2_lt _ _ hmi (by omega) _ _
  rw [emi]
  apply chars_lt_append; apply chars_lt_tail
  exact appendInt2_lt _ _ hl (by omega) _ _

theorem stampRecord_updatedAt (f : ExcalidrawFile) (n1 n2 : Time) :
    (stampRecord f n1 n2).UpdatedAt = formatRFC3339 n2 := rfl

set_option maxRecDepth 100000 in
/-- C4, as stated, fails: `clockB` is a later clock reading than `clockA`
within the same second; two successive saves of the id `abc` at these readings
both succeed, and the updatedAt stored after the second is equal to, not
greater than, the updatedAt stored after the first. -/
theorem C4_same_second_not_advanced :
    clockA.later clockB
    ∧ (SaveFile emptyStore storageDir fresh clockA clockA).2 = none
    ∧ (SaveFile storeAfterFirst storageDir fresh clockB clockB).2 = none
    ∧ ∃ r1 r2, storedRecord storeAfterFirst storageDir "abc" = some r1
        ∧ storedRecord (SaveFile storeAfterFirst storageDir fresh clockB clockB).1 storageDir "abc"
            = some r2
        ∧ r2.UpdatedAt = r1.UpdatedAt ∧ ¬ r1.UpdatedAt < r2.UpdatedAt := by
  have hs1 : (SaveFile emptyStore storageDir fresh clockA clockA).2 = none := by decide
  have hs2 : (SaveFile storeAfterFirst storageDir fresh clockB clockB).2 = none := rfl
  obtain ⟨f1, _, h1⟩ := storedRecord_after_save emptyStore storageDir fresh clockA clockA hs1
  obtain ⟨f2, _, h2⟩ := storedRecord_after_save storeAfterFirst storageDir fresh clockB clockB hs2
  have he : (stampRecord f2 clockB clockB).UpdatedAt = (stampRecord f1 clockA clockA).UpdatedAt := by
    rw [stampRecord_updatedAt, stampRecord_updatedAt]; decide
  refine ⟨by decide, hs1, hs2, _, _, h1, h2, he, ?_⟩
  rw [he]
  exact lt_irrefl _

/-- C4, amended: for two successive successful `SaveFile` calls on the same id
whose clock readings for updatedAt are calendar times with a four-digit year in
the same zone, the second in a later clock second than the first, the updatedAt
stored after the second save is strictly greater, as a string, than the
updatedAt stored after the first save. -/
theorem C4_updatedAt_advances (fs : FS) (dir : Path) (d1 d2 : ExcalidrawFile)
    (a1 a2 b1 b2 : Time) (hid : d2.Id = d1.Id)
    (hs1 : (SaveFile fs dir d1 a1 a2).2 = none)
    (hs2 : (SaveFile (SaveFile fs dir d1 a1 a2).1 dir d2 b1 b2).2 = none)
    (hva : a2.valid) (hvb : b2.valid) (hlater : a2.laterSecond b2) :
    ∃ r1 r2, storedRecord (SaveFile fs dir d1 a1 a2).1 dir d1.Id = some r1
      ∧ storedRecord (SaveFile (SaveFile fs dir d1 a1 a2).1 dir d2 b1 b2).1 dir d1.Id = some r2
      ∧ r1.UpdatedAt < r2.UpdatedAt := by
  obtain ⟨f1, _, h1⟩ := storedRecord_after_save fs dir d1 a1 a2 hs1
  obtain ⟨f2, _, h2⟩ := storedRecord_after_save _ dir d2 b1 b2 hs2
  rw [hid] at h2
  refine ⟨_, _, h1, h2, ?_⟩
  rw [stampRecord_updatedAt, stampRecord_updatedAt]
  exact formatRFC3339_lt a2 b2 hva hvb hlater

set_option maxRecDepth 100000 in
/-- C4, amended, for two saves of `abc` one second apart. -/
theorem C4_updatedAt_advances_witness :
    ∃ r1 r2, storedRecord (SaveFile emptyStore storageDir fresh clockA clockA).1 storageDir
          fresh.Id = some r1
      ∧ storedRecord (SaveFile (SaveFile emptyStore storageDir fresh clockA clockA).1 storageDir
          dated clockC clockC).1 storageDir fresh.Id = some r2
      ∧ r1.UpdatedAt < r2.UpdatedAt :=
  C4_updatedAt_advances emptyStore storageDir fresh dated clockA clockA clockC clockC rfl
    (by decide) rfl (by decide) (by decide) (by decide)


end Excaliapp
